import Mathlib

/-!
Verification of the dense linear-algebra kernels of the `chapter2` crate
(Gaussian elimination with partial pivoting, pivoted LU decomposition,
triangular substitution solvers, power iteration, and the fixed-size
matrix/vector type).

The Rust code computes with IEEE-754 `f64`; the shallow embedding below
computes with exact rationals `ℚ`, so that "equal within `EPSILON`" facts
can be settled exactly.  `f64::sqrt` (used only by the vector norm of
`matrix.rs`) has no exact rational counterpart, so the norm is embedded
with the square-root function as an explicit parameter `sq : ℚ → ℚ`;
nothing proved below depends on which function is supplied.

Matrices are embedded as entry functions `Nat → Nat → ℚ` (indexing is
always by `(row, column)`, as in the source); the in-place mutation of the
Rust routines is embedded as functional update of the entry function, and
a Rust `panic!`/`expect` abort is embedded as `Option`/`Except` failure.
-/

/-- `EPSILON = 1e-10` (src/chapter2/src/lib.rs), as an exact rational. -/
def EPSILON : ℚ := 1 / 10 ^ 10

/-- A matrix, embedded as its entry function: `m i j` is the entry at row
`i`, column `j`.  (The Rust sources index both their own `Matrix<N, M>` and
nalgebra matrices as `m[(i, j)]` by (row, column).) -/
abbrev Mat : Type := Nat → Nat → ℚ

/-- Build a matrix from a row-major list of rows (entries outside the
given lists are `0`).  Used only to write down concrete test inputs. -/
def matOfRows (rows : List (List ℚ)) : Mat :=
  fun i j => ((rows.getD i []).getD j 0)

/-- `swap_rows(r1, r2)`: exchange all column entries at rows `r1` and `r2`
(src/chapter2/src/matrix.rs, and nalgebra's `swap_rows` used by ex1/ex23). -/
def swap_rows (m : Mat) (r1 r2 : Nat) : Mat :=
  fun i j => if i = r1 then m r2 j else if i = r2 then m r1 j else m i j

/-- `pi.swap(r1, r2)` on the permutation array of ex23.rs. -/
def swapPi (p : Nat → Nat) (r1 r2 : Nat) : Nat → Nat :=
  fun i => if i = r1 then p r2 else if i = r2 then p r1 else p i

/-- One step of Rust's `Iterator::max_by` (via `core::cmp::max_by`) on
`(index, value)` pairs compared by `|value|`: the accumulator is kept only
when its key is strictly greater, so equally-maximal elements are replaced
— `max_by` returns the LAST maximal element. -/
def rustMaxStep (acc : Option (Nat × ℚ)) (p : Nat × ℚ) : Option (Nat × ℚ) :=
  match acc with
  | none => some p
  | some q => if |q.2| > |p.2| then some q else some p

/-- Rust's `iterator.max_by(|(_, a), (_, b)| cmp(|a|, |b|))`: a fold of
`rustMaxStep` (Rust `reduce`) starting from `None`.  (`partial_cmp` cannot
fail over `ℚ`, a total order, so the `expect("found NaN or Inf")` panic
has no counterpart here.) -/
def rustMaxByAbs (l : List (Nat × ℚ)) : Option (Nat × ℚ) :=
  l.foldl rustMaxStep none

/-- The pivot-candidate list of ex1.rs lines 11-13 / ex23.rs lines 31-33:
`(k..n).map(|i| (i, u[(i, k)])).filter(|(_, v)| v.abs() > EPSILON)`. -/
def pivotCandidates (u : Mat) (k n : Nat) : List (Nat × ℚ) :=
  ((List.range' k (n - k)).map (fun i => (i, u i k))).filter
    (fun p => decide (EPSILON < |p.2|))

/-- The shared partial-pivot selection of `do_gaussian_elimination_for_n_n1`
(ex1.rs lines 11-15) and `lu_decomposition` (ex23.rs lines 31-35): the
`max_by` over the filtered candidate list; `none` is the
`expect("Matrix is singular")` panic. -/
def selectPivot (u : Mat) (k n : Nat) : Option (Nat × ℚ) :=
  rustMaxByAbs (pivotCandidates u k n)

/-- The elimination update of row `i` against pivot row `k` in
`do_gaussian_elimination_for_n_n1` (ex1.rs lines 21-26):
`factor = ab[(i,k)] / ab[(k,k)]`, then `ab[(i,j)] -= factor * ab[(k,j)]`
for `j = k..m`.  The factor is read before row `i` is written and row `k`
is never written, so the sequential column loop is this functional update. -/
def elimRowGE (ab : Mat) (k i m : Nat) : Mat :=
  fun r c =>
    if r = i ∧ k ≤ c ∧ c < m then ab r c - ab i k / ab k k * ab k c else ab r c

/-- One pivot-column step `k` of `do_gaussian_elimination_for_n_n1`
(ex1.rs lines 10-27) on an `n × m` matrix: pivot selection (panic = `none`),
conditional row swap, then elimination of rows `k+1..n`. -/
def geStep (n m : Nat) (s : Option Mat) (k : Nat) : Option Mat :=
  match s with
  | none => none
  | some ab =>
    match selectPivot ab k n with
    | none => none
    | some iv =>
      let ab1 := if iv.1 ≠ k then swap_rows ab iv.1 k else ab
      some ((List.range' (k + 1) (n - (k + 1))).foldl
        (fun m2 i => elimRowGE m2 k i m) ab1)

/-- `do_gaussian_elimination_for_n_n1` (ex1.rs lines 4-28) on an
`n × (n+1)` augmented matrix: the loop `for k in 0..(n - 1)`. -/
def do_gaussian_elimination_for_n_n1 (n : Nat) (ab : Mat) : Option Mat :=
  (List.range (n - 1)).foldl (geStep n (n + 1)) (some ab)

/-- The body of the inner row loop of `lu_decomposition` (ex23.rs lines
43-49) acting on the pair `(u, l)`: update row `i` of `u` on columns
`k..n` and store the factor at `l[(i, k)]`. -/
def luElimStep (ul : Mat × Mat) (k i n : Nat) : Mat × Mat :=
  ((fun r c =>
      if r = i ∧ k ≤ c ∧ c < n then ul.1 r c - ul.1 i k / ul.1 k k * ul.1 k c
      else ul.1 r c),
   (fun r c => if r = i ∧ c = k then ul.1 i k / ul.1 k k else ul.2 r c))

/-- ex23.rs lines 50-51: `l[(k,k)] = 1.0` and then zeroing the entries of
column `k` at rows `0..k` (`l.column_mut(k).rows_range_mut(0..k)`). -/
def fixL (l : Mat) (k : Nat) : Mat :=
  fun r c => if r = k ∧ c = k then 1 else if r < k ∧ c = k then 0 else l r c

/-- One step `k` of the `for k in 0..N` loop of `lu_decomposition`
(ex23.rs lines 30-52) on the state `(l, u, pi)`. -/
def luStep (n : Nat) (s : Option (Mat × Mat × (Nat → Nat))) (k : Nat) :
    Option (Mat × Mat × (Nat → Nat)) :=
  match s with
  | none => none
  | some lup =>
    match selectPivot lup.2.1 k n with
    | none => none
    | some iv =>
      let l1 := if iv.1 ≠ k then swap_rows lup.1 iv.1 k else lup.1
      let u1 := if iv.1 ≠ k then swap_rows lup.2.1 iv.1 k else lup.2.1
      let p1 := if iv.1 ≠ k then swapPi lup.2.2 iv.1 k else lup.2.2
      let ul := (List.range' (k + 1) (n - (k + 1))).foldl
        (fun ul2 i => luElimStep ul2 k i n) (u1, l1)
      some (fixL ul.2 k, ul.1, p1)

/-- `lu_decomposition` (ex23.rs lines 10-55) on an `n × n` matrix:
`pi` starts as the identity permutation, `l` as the identity matrix and
`u` as `a` itself; `none` is the `expect("Matrix is singular")` panic. -/
def lu_decomposition (n : Nat) (a : Mat) : Option (Mat × Mat × (Nat → Nat)) :=
  (List.range n).foldl (luStep n)
    (some ((fun i j => if i = j then 1 else 0), a, fun i => i))

/-- The triangularity assertion of `forward_substitution`
(src/chapter2/src/lib.rs line 22-25):
`(0..N).all(|i| m.column(i).take(i).all(|x| x.abs() < EPSILON))` — the
first `i` entries of column `i` are the entries `(r, i)` with `r < i`,
i.e. the entries strictly above the diagonal.  Note the STRICT `<`. -/
def lowerTriangularCheck (n : Nat) (m : Mat) : Prop :=
  ∀ i < n, ∀ r < i, |m r i| < EPSILON

instance (n : Nat) (m : Mat) : Decidable (lowerTriangularCheck n m) :=
  inferInstanceAs (Decidable (∀ i < n, ∀ r < i, |m r i| < EPSILON))

/-- The triangularity assertion of `back_substitution`
(src/chapter2/src/lib.rs line 48-51):
`(0..N).all(|i| m.column(i).skip(i + 1).all(|x| x.abs() < EPSILON))` — the
entries `(r, i)` with `r > i`, strictly below the diagonal. -/
def upperTriangularCheck (n : Nat) (m : Mat) : Prop :=
  ∀ i < n, ∀ r < n, i < r → |m r i| < EPSILON

instance (n : Nat) (m : Mat) : Decidable (upperTriangularCheck n m) :=
  inferInstanceAs (Decidable (∀ i < n, ∀ r < n, i < r → |m r i| < EPSILON))

/-- The filling loop of `forward_substitution` (lib.rs lines 27-35):
`y` starts zeroed; after `t` iterations the entries `y_0 .. y_{t-1}` are
filled, each as `(b_i - sum_{j<i} a_{ij} y_j) / a_{ii}` read off the
already-filled entries. -/
def fsGo (a : Mat) (b : Nat → ℚ) : Nat → (Nat → ℚ)
  | 0 => fun _ => 0
  | t + 1 =>
    let y := fsGo a b t
    fun r =>
      if r = t then
        (b t - (List.range t).foldl (fun s j => s + a t j * y j) 0) / a t t
      else y r

/-- `forward_substitution` (lib.rs lines 18-36); `none` is the failed
`assert!("Matrix is not lower triangular")`. -/
def forward_substitution (n : Nat) (a : Mat) (b : Nat → ℚ) : Option (Nat → ℚ) :=
  if lowerTriangularCheck n a then some (fsGo a b n) else none

/-- The filling loop of `back_substitution` (lib.rs lines 53-61):
`x` starts zeroed; the loop runs `i` downwards from `n-1`, so after `t`
iterations the entries `x_{n-t} .. x_{n-1}` are filled, each as
`(b_i - sum_{j>i} a_{ij} x_j) / a_{ii}`. -/
def bsGo (a : Mat) (b : Nat → ℚ) (n : Nat) : Nat → (Nat → ℚ)
  | 0 => fun _ => 0
  | t + 1 =>
    let x := bsGo a b n t
    let i := n - (t + 1)
    fun r =>
      if r = i then
        (b i - (List.range' (i + 1) (n - (i + 1))).foldl
          (fun s j => s + a i j * x j) 0) / a i i
      else x r

/-- `back_substitution` (lib.rs lines 44-62); `none` is the failed
`assert!("Matrix is not upper triangular")`. -/
def back_substitution (n : Nat) (a : Mat) (b : Nat → ℚ) : Option (Nat → ℚ) :=
  if upperTriangularCheck n a then some (bsGo a b n n) else none

/-- Matrix-vector product (matrix.rs `Mul`, lines 245-250):
`y_i = sum_{c<n} a[(i,c)] * x[c]`. -/
def matVec (n : Nat) (a : Mat) (x : Nat → ℚ) : Nat → ℚ :=
  fun i => ∑ c ∈ Finset.range n, a i c * x c

/-- `Vector::norm` (matrix.rs lines 103-105):
`sqrt(sum of squares)`, with `f64::sqrt` passed as the explicit parameter
`sq` (there is no exact rational square root). -/
def vecNorm (sq : ℚ → ℚ) (n : Nat) (v : Nat → ℚ) : ℚ :=
  sq ((List.range n).foldl (fun s i => s + v i * v i) 0)

/-- `Vector::normalize`/`normalized` (matrix.rs lines 107-115): divide
every entry by the norm via `DivAssign` (lines 300-304).  NOTE: the
source performs NO zero-norm check — on a zero vector this divides each
entry by `0.0` (IEEE: `0.0/0.0 = NaN`) and returns normally; the
embedding is accordingly a total function with no error outcome. -/
def vecNormalized (sq : ℚ → ℚ) (n : Nat) (v : Nat → ℚ) : Nat → ℚ :=
  fun i => if i < n then v i / vecNorm sq n v else v i

/-- `MAX_ITERATIONS` of `solve_by_power_iteration` (ex4.rs line 5). -/
def MAX_ITERATIONS : Nat := 1000000

/-- The result struct `DominantEigenvalueSolution` (lib.rs lines 143-147). -/
structure DominantEigenvalueSolution where
  eigenvalue : ℚ
  eigenvector : Nat → ℚ
  iteration_count : Nat

/-- The two panic outcomes of `solve_by_power_iteration` (ex4.rs):
`zeroVector` is `expect("Vector is zero")` (reachable only when the
iterated vector is empty, i.e. `n = 0`), `divergence` is the final
`panic!` after the iteration loop is exhausted. -/
inductive PIError where
  | zeroVector : PIError
  | divergence : PIError
deriving DecidableEq

/-- The loop `for count in 1..MAX_ITERATIONS` of `solve_by_power_iteration`
(ex4.rs lines 9-29), with the remaining trip count as fuel: compute
`y = a * x`, pick the index `i` of the largest-magnitude entry of `x`
(Rust `max_by`: last such index), form `mu_k = y[i] / x[i]`, return if the
convergence test `(mu.last().abs() - mu_k.abs()).abs() < EPSILON` holds,
otherwise push `mu_k` and continue with `x := y.normalized()`. -/
def piLoop (sq : ℚ → ℚ) (n : Nat) (a : Mat) :
    Nat → Nat → List ℚ → (Nat → ℚ) → Except PIError DominantEigenvalueSolution
  | 0, _, _, _ => .error .divergence
  | fuel + 1, count, mu, x =>
    let y := matVec n a x
    match rustMaxByAbs ((List.range n).map (fun i => (i, x i))) with
    | none => .error .zeroVector
    | some iv =>
      let muK := y iv.1 / x iv.1
      match mu.getLast? with
      | some it =>
        if |(|it| - |muK|)| < EPSILON then .ok ⟨muK, x, count⟩
        else piLoop sq n a fuel (count + 1) (mu ++ [muK]) (vecNormalized sq n y)
      | none => piLoop sq n a fuel (count + 1) (mu ++ [muK]) (vecNormalized sq n y)

/-- `solve_by_power_iteration` (ex4.rs lines 4-32): `mu` starts empty,
`x` starts as the all-ones vector (`Vector::filled_with(1.0)`), and the
loop counter runs over `1..MAX_ITERATIONS`, i.e. `MAX_ITERATIONS - 1`
trips. -/
def solve_by_power_iteration (sq : ℚ → ℚ) (n : Nat) (a : Mat) :
    Except PIError DominantEigenvalueSolution :=
  piLoop sq n a (MAX_ITERATIONS - 1) 1 [] (fun _ => 1)

/-- The unconditional state trajectory of the power-iteration loop: the
pair `(mu, x)` at entry of trip `t` (so `piTraj 0 = ([], all-ones)`), with
the convergence branch ignored.  Used to state when the loop's test
fails/holds at trip `t`. -/
def piTraj (sq : ℚ → ℚ) (n : Nat) (a : Mat) : Nat → List ℚ × (Nat → ℚ)
  | 0 => ([], fun _ => 1)
  | t + 1 =>
    let mx := piTraj sq n a t
    let y := matVec n a mx.2
    match rustMaxByAbs ((List.range n).map (fun i => (i, mx.2 i))) with
    | none => mx
    | some iv => (mx.1 ++ [y iv.1 / mx.2 iv.1], vecNormalized sq n y)

/-- The convergence test of ex4.rs line 19 evaluated on the trajectory
state at entry of trip `t`: it holds when `mu` is nonempty and the new
estimate `mu_k` is within `EPSILON` of the previous one in the
`(|prev| - |mu_k|).abs()` sense. -/
def piConvergesAt (sq : ℚ → ℚ) (n : Nat) (a : Mat) (t : Nat) : Prop :=
  let mx := piTraj sq n a t
  let y := matVec n a mx.2
  match rustMaxByAbs ((List.range n).map (fun i => (i, mx.2 i))) with
  | none => False
  | some iv =>
    match mx.1.getLast? with
    | some it => |(|it| - |(y iv.1 / mx.2 iv.1)|)| < EPSILON
    | none => False

/-- The `Matrix<N, M>` container of src/chapter2/src/matrix.rs: a Vec of
`M` columns, each a Vec of `N` entries (`columns[j][i]` is the entry at
row `i`, column `j`).  The dimensions are tracked as type indices just as
Rust tracks them as const generics. -/
structure MatrixQ (N M : Nat) where
  columns : List (List ℚ)
deriving DecidableEq

/-- The well-formedness that Rust's constructors guarantee: `M` columns of
`N` entries each. -/
def MatrixQ.wf {N M : Nat} (m : MatrixQ N M) : Prop :=
  m.columns.length = M ∧ ∀ c ∈ m.columns, c.length = N

instance {N M : Nat} (m : MatrixQ N M) : Decidable m.wf :=
  inferInstanceAs (Decidable (_ ∧ _))

/-- `Matrix::from_fn` (matrix.rs lines 59-61):
`columns = (0..M).map(|j| (0..N).map(|i| f(i, j)).collect()).collect()`. -/
def MatrixQ.from_fn (N M : Nat) (f : Nat → Nat → ℚ) : MatrixQ N M :=
  ⟨(List.range M).map (fun j => (List.range N).map (fun i => f i j))⟩

/-- The `Index<(usize, usize)>` impl (matrix.rs lines 161-166):
`&self.columns[j][i]`.  Out-of-range access is a Rust panic; the embedding
totalizes it with `0` and all statements below stay inside the range. -/
def MatrixQ.entry {N M : Nat} (m : MatrixQ N M) (i j : Nat) : ℚ :=
  (m.columns.getD j []).getD i 0

/-- `Matrix::transpose` (matrix.rs lines 71-73):
`Matrix::<M, N>::from_fn(|i, j| self[(j, i)])`. -/
def MatrixQ.transpose {N M : Nat} (m : MatrixQ N M) : MatrixQ M N :=
  MatrixQ.from_fn M N (fun i j => m.entry j i)

/-- The state threaded through the embedding of
`solve_by_gaussian_elimination` (ex1.rs lines 30-41): the caller's
coefficient matrix `a` and right-hand side `b`, and the private working
copy `work` (the `augmented_coefficient_matrix` that the elimination
mutates in place). -/
structure SolverCallState where
  a : Mat
  b : Nat → ℚ
  work : Mat

/-- `solve_by_gaussian_elimination` (ex1.rs lines 30-41) as a state
transformer: build the augmented working copy by reading `a` and `b`
(`DMatrix::from_fn`), run the in-place elimination on that copy alone,
then back-substitute on views of the copy.  All writes of the routine
target `work`; `a` and `b` are only read. -/
def solve_by_gaussian_elimination (n : Nat) (s : SolverCallState) :
    Option (Nat → ℚ) × SolverCallState :=
  let aug : Mat := fun i j => if j < n then s.a i j else s.b i
  match do_gaussian_elimination_for_n_n1 n aug with
  | none => (none, { a := s.a, b := s.b, work := aug })
  | some w =>
    (back_substitution n (fun i j => w i j) (fun i => w i n),
     { a := s.a, b := s.b, work := w })

/-- The spec's pivot tie-break rule, modelled from the spec's words
("select the row with maximum `|A[i,k]|`. Tie-break: first such row
encountered (stable max)"): the first index in `k..n` whose entry exceeds
`EPSILON` in magnitude and is of maximal magnitude among all such
candidates.  This is what claim C3 asserts `selectPivot` computes. -/
def specFirstMaxPivotRow (u : Mat) (k n : Nat) : Option Nat :=
  (List.range' k (n - k)).find? (fun i =>
    decide (EPSILON < |u i k|) &&
    decide (∀ r, k ≤ r → r < n → EPSILON < |u r k| → |u r k| ≤ |u i k|))

/-! ### Properties of the `max_by` pivot search -/

/-- Characterization of a successful `rustMaxStep` fold: the result either
is the initial accumulator (with everything in the list strictly smaller
in magnitude), or splits the list as `l1 ++ result :: l2` with everything
before it (and the initial accumulator) no larger and everything after it
strictly smaller — Rust's `max_by` keeps the LAST maximal element. -/
theorem foldl_rustMaxStep_spec (l : List (Nat × ℚ)) :
    ∀ (acc : Option (Nat × ℚ)) (p : Nat × ℚ), l.foldl rustMaxStep acc = some p →
      (acc = some p ∧ ∀ q ∈ l, |q.2| < |p.2|) ∨
      (∃ l1 l2, l = l1 ++ p :: l2 ∧ (∀ q ∈ l1, |q.2| ≤ |p.2|) ∧
        (∀ q ∈ l2, |q.2| < |p.2|) ∧ ∀ a2, acc = some a2 → |a2.2| ≤ |p.2|) := by
  induction l with
  | nil =>
    intro acc p h
    exact Or.inl ⟨h, by intro q hq; cases hq⟩
  | cons x t ih =>
    intro acc p h
    rw [List.foldl_cons] at h
    rcases ih (rustMaxStep acc x) p h with ⟨he, hall⟩ | ⟨l1, l2, heq, h1, h2, h3⟩
    · cases acc with
      | none =>
        obtain rfl : x = p := Option.some.inj (by simpa [rustMaxStep] using he)
        refine Or.inr ⟨[], t, rfl, ?_, hall, ?_⟩
        · intro q hq; cases hq
        · intro a2 ha2; exact Option.noConfusion ha2
      | some a2 =>
        by_cases hc : |a2.2| > |x.2|
        · obtain rfl : a2 = p := Option.some.inj (by simpa [rustMaxStep, hc] using he)
          refine Or.inl ⟨rfl, ?_⟩
          intro q hq
          rcases List.mem_cons.mp hq with rfl | hq
          · exact hc
          · exact hall q hq
        · obtain rfl : x = p := Option.some.inj (by simpa [rustMaxStep, hc] using he)
          refine Or.inr ⟨[], t, rfl, ?_, hall, ?_⟩
          · intro q hq; cases hq
          · intro a3 ha3
            obtain rfl : a2 = a3 := Option.some.inj ha3
            exact not_lt.mp hc
    · cases acc with
      | none =>
        have hstep : rustMaxStep none x = some x := rfl
        rw [hstep] at h3
        have hxle : |x.2| ≤ |p.2| := h3 x rfl
        refine Or.inr ⟨x :: l1, l2, by rw [heq, List.cons_append], ?_, h2,
          fun a2 ha2 => Option.noConfusion ha2⟩
        intro q hq
        rcases List.mem_cons.mp hq with rfl | hq
        · exact hxle
        · exact h1 q hq
      | some a2 =>
        by_cases hc : |a2.2| > |x.2|
        · have hstep : rustMaxStep (some a2) x = some a2 := by simp [rustMaxStep, hc]
          rw [hstep] at h3
          have hale : |a2.2| ≤ |p.2| := h3 a2 rfl
          have hxle : |x.2| ≤ |p.2| := le_trans (le_of_lt hc) hale
          refine Or.inr ⟨x :: l1, l2, by rw [heq, List.cons_append], ?_, h2, ?_⟩
          · intro q hq
            rcases List.mem_cons.mp hq with rfl | hq
            · exact hxle
            · exact h1 q hq
          · intro a3 ha3
            obtain rfl : a2 = a3 := Option.some.inj ha3
            exact hale
        · have hstep : rustMaxStep (some a2) x = some x := by simp [rustMaxStep, hc]
          rw [hstep] at h3
          have hxle : |x.2| ≤ |p.2| := h3 x rfl
          have hale : |a2.2| ≤ |p.2| := le_trans (not_lt.mp hc) hxle
          refine Or.inr ⟨x :: l1, l2, by rw [heq, List.cons_append], ?_, h2, ?_⟩
          · intro q hq
            rcases List.mem_cons.mp hq with rfl | hq
            · exact hxle
            · exact h1 q hq
          · intro a3 ha3
            obtain rfl : a2 = a3 := Option.some.inj ha3
            exact hale

/-- Membership in the pivot-candidate list. -/
theorem mem_pivotCandidates {u : Mat} {k n : Nat} {q : Nat × ℚ} :
    q ∈ pivotCandidates u k n ↔
      k ≤ q.1 ∧ q.1 < n ∧ q.2 = u q.1 k ∧ EPSILON < |q.2| := by
  unfold pivotCandidates
  rw [List.mem_filter]
  simp only [List.mem_map, List.mem_range'_1, decide_eq_true_eq]
  constructor
  · rintro ⟨⟨r, ⟨hr1, hr2⟩, rfl⟩, hf⟩
    exact ⟨hr1, by omega, rfl, hf⟩
  · rintro ⟨h1, h2, h3, h4⟩
    exact ⟨⟨q.1, ⟨h1, by omega⟩, by rw [← h3]⟩, h4⟩

/-- A successful pivot selection returns a pair `(i, u i k)` with
`k ≤ i < n` and magnitude above `EPSILON`. -/
theorem selectPivot_mem {u : Mat} {k n i : Nat} {v : ℚ}
    (h : selectPivot u k n = some (i, v)) :
    k ≤ i ∧ i < n ∧ v = u i k ∧ EPSILON < |v| := by
  have hspec := foldl_rustMaxStep_spec (pivotCandidates u k n) none (i, v) h
  rcases hspec with ⟨he, _⟩ | ⟨l1, l2, heq, _, _, _⟩
  · exact Option.noConfusion he
  · have hm : (i, v) ∈ pivotCandidates u k n := by
      rw [heq]
      exact List.mem_append.mpr (Or.inr (List.mem_cons_self _ _))
    exact mem_pivotCandidates.mp hm

/-- The selected pivot has maximal magnitude among all candidates. -/
theorem selectPivot_max {u : Mat} {k n i : Nat} {v : ℚ}
    (h : selectPivot u k n = some (i, v)) :
    ∀ r, k ≤ r → r < n → EPSILON < |u r k| → |u r k| ≤ |v| := by
  intro r hr1 hr2 hr3
  have hspec := foldl_rustMaxStep_spec (pivotCandidates u k n) none (i, v) h
  rcases hspec with ⟨he, _⟩ | ⟨l1, l2, heq, h1, h2, _⟩
  · exact Option.noConfusion he
  · have hm : (r, u r k) ∈ pivotCandidates u k n :=
      mem_pivotCandidates.mpr ⟨hr1, hr2, rfl, hr3⟩
    rw [heq] at hm
    rcases List.mem_append.mp hm with hm | hm
    · exact h1 (r, u r k) hm
    · rcases List.mem_cons.mp hm with hm | hm
      · have hv : u r k = v := congrArg Prod.snd hm
        rw [hv]
      · exact le_of_lt (h2 (r, u r k) hm)

/-- The first components of the pivot-candidate list are strictly
increasing (they come from `(k..n)`). -/
theorem pivotCandidates_pairwise (u : Mat) (k n : Nat) :
    (pivotCandidates u k n).Pairwise (fun a b => a.1 < b.1) := by
  unfold pivotCandidates
  apply List.Pairwise.filter
  exact (List.pairwise_lt_range' k (n - k) 1).map _ (fun a b hab => by simpa using hab)

/-- Tie-breaking: every candidate AFTER the selected row is strictly
smaller in magnitude — on ties `max_by` keeps the last maximal row, so no
later candidate can tie with the winner. -/
theorem selectPivot_last {u : Mat} {k n i : Nat} {v : ℚ}
    (h : selectPivot u k n = some (i, v)) :
    ∀ r, i < r → r < n → EPSILON < |u r k| → |u r k| < |v| := by
  intro r hr1 hr2 hr3
  have hki : k ≤ i := (selectPivot_mem h).1
  have hspec := foldl_rustMaxStep_spec (pivotCandidates u k n) none (i, v) h
  rcases hspec with ⟨he, _⟩ | ⟨l1, l2, heq, h1, h2, _⟩
  · exact Option.noConfusion he
  · have hm : (r, u r k) ∈ pivotCandidates u k n :=
      mem_pivotCandidates.mpr ⟨le_trans hki (le_of_lt hr1), hr2, rfl, hr3⟩
    have hpw := pivotCandidates_pairwise u k n
    rw [heq] at hm hpw
    rw [List.pairwise_append] at hpw
    obtain ⟨-, hpw2, hpw3⟩ := hpw
    rw [List.pairwise_cons] at hpw2
    rcases List.mem_append.mp hm with hm | hm
    · exact absurd (show r < i from hpw3 (r, u r k) hm (i, v) (List.mem_cons_self _ _)) (by omega)
    · rcases List.mem_cons.mp hm with hm | hm
      · exact absurd (show r = i from congrArg Prod.fst hm) (by omega)
      · exact h2 (r, u r k) hm

/-! ### Pointwise description of the inner elimination loop of LU -/

/-- Rows not processed by the inner loop keep their `u` entries. -/
theorem luElimFold_fst_not_mem (k n : Nat) :
    ∀ (rs : List Nat) (ul : Mat × Mat) (r c : Nat), r ∉ rs →
      ((rs.foldl (fun ul2 i => luElimStep ul2 k i n) ul).1) r c = ul.1 r c := by
  intro rs
  induction rs with
  | nil => intro ul r c _; rfl
  | cons i t ih =>
    intro ul r c hr
    rw [List.foldl_cons]
    have hri : r ≠ i := fun hri => hr (hri ▸ List.mem_cons_self i t)
    rw [ih (luElimStep ul k i n) r c (fun hrt => hr (List.mem_cons_of_mem i hrt))]
    simp [luElimStep, hri]

/-- `l` entries outside the processed rows or outside column `k` are kept. -/
theorem luElimFold_snd_not_mem (k n : Nat) :
    ∀ (rs : List Nat) (ul : Mat × Mat) (r c : Nat), r ∉ rs ∨ c ≠ k →
      ((rs.foldl (fun ul2 i => luElimStep ul2 k i n) ul).2) r c = ul.2 r c := by
  intro rs
  induction rs with
  | nil => intro ul r c _; rfl
  | cons i t ih =>
    intro ul r c hr
    rw [List.foldl_cons]
    rcases hr with hr | hr
    · have hri : r ≠ i := fun hri => hr (hri ▸ List.mem_cons_self i t)
      rw [ih (luElimStep ul k i n) r c (Or.inl (fun hrt => hr (List.mem_cons_of_mem i hrt)))]
      simp [luElimStep, hri]
    · rw [ih (luElimStep ul k i n) r c (Or.inr hr)]
      simp [luElimStep, hr]

/-- A processed row `r` of `u` gets `u[r][c] - u[r][k]/u[k][k] * u[k][c]`
on columns `k ≤ c < n` (entries of the state at loop entry: row `k` is
never written, and row `r` is written only at its own turn, after its
factor was read). -/
theorem luElimFold_fst_mem (k n : Nat) :
    ∀ (rs : List Nat) (ul : Mat × Mat) (r c : Nat), r ∈ rs → rs.Nodup → k ∉ rs →
      ((rs.foldl (fun ul2 i => luElimStep ul2 k i n) ul).1) r c =
        if k ≤ c ∧ c < n then ul.1 r c - ul.1 r k / ul.1 k k * ul.1 k c
        else ul.1 r c := by
  intro rs
  induction rs with
  | nil => intro ul r c hr; cases hr
  | cons i t ih =>
    intro ul r c hr hnd hk
    rw [List.foldl_cons]
    have hit : i ∉ t := (List.nodup_cons.mp hnd).1
    have hnt : t.Nodup := (List.nodup_cons.mp hnd).2
    have hkt : k ∉ t := fun hkt => hk (List.mem_cons_of_mem i hkt)
    have hki : k ≠ i := fun hki2 => hk (hki2 ▸ List.mem_cons_self i t)
    rcases List.mem_cons.mp hr with hre | hrt
    · subst hre
      rw [luElimFold_fst_not_mem k n t (luElimStep ul k r n) r c hit]
      by_cases hc : k ≤ c ∧ c < n
      · simp [luElimStep, hc]
      · simp [luElimStep, hc]
    · have hri : r ≠ i := fun hre => hit (hre ▸ hrt)
      rw [ih (luElimStep ul k i n) r c hrt hnt hkt]
      have e1 : (luElimStep ul k i n).1 r c = ul.1 r c := by simp [luElimStep, hri]
      have e2 : (luElimStep ul k i n).1 r k = ul.1 r k := by simp [luElimStep, hri]
      have e3 : (luElimStep ul k i n).1 k k = ul.1 k k := by simp [luElimStep, hki]
      have e4 : (luElimStep ul k i n).1 k c = ul.1 k c := by simp [luElimStep, hki]
      rw [e1, e2, e3, e4]

/-- A processed row `r` of `l` gets the factor `u[r][k]/u[k][k]` stored at
column `k`. -/
theorem luElimFold_snd_mem (k n : Nat) :
    ∀ (rs : List Nat) (ul : Mat × Mat) (r : Nat), r ∈ rs → rs.Nodup → k ∉ rs →
      ((rs.foldl (fun ul2 i => luElimStep ul2 k i n) ul).2) r k =
        ul.1 r k / ul.1 k k := by
  intro rs
  induction rs with
  | nil => intro ul r hr; cases hr
  | cons i t ih =>
    intro ul r hr hnd hk
    rw [List.foldl_cons]
    have hit : i ∉ t := (List.nodup_cons.mp hnd).1
    have hnt : t.Nodup := (List.nodup_cons.mp hnd).2
    have hkt : k ∉ t := fun hkt => hk (List.mem_cons_of_mem i hkt)
    have hki : k ≠ i := fun hki2 => hk (hki2 ▸ List.mem_cons_self i t)
    rcases List.mem_cons.mp hr with hre | hrt
    · subst hre
      rw [luElimFold_snd_not_mem k n t (luElimStep ul k r n) r k (Or.inl hit)]
      simp [luElimStep]
    · have hri : r ≠ i := fun hre => hit (hre ▸ hrt)
      rw [ih (luElimStep ul k i n) r hrt hnt hkt]
      have e2 : (luElimStep ul k i n).1 r k = ul.1 r k := by simp [luElimStep, hri]
      have e3 : (luElimStep ul k i n).1 k k = ul.1 k k := by simp [luElimStep, hki]
      rw [e2, e3]


/-! ### The LU loop invariant -/

theorem swap_rows_fst (m : Mat) (r1 r2 j : Nat) : swap_rows m r1 r2 r1 j = m r2 j := by
  simp [swap_rows]

theorem swap_rows_snd (m : Mat) (r1 r2 j : Nat) (h : r2 ≠ r1) :
    swap_rows m r1 r2 r2 j = m r1 j := by
  simp [swap_rows, h]

theorem swap_rows_ne (m : Mat) (r1 r2 i j : Nat) (h1 : i ≠ r1) (h2 : i ≠ r2) :
    swap_rows m r1 r2 i j = m i j := by
  simp [swap_rows, h1, h2]

theorem swapPi_fst (p : Nat → Nat) (r1 r2 : Nat) : swapPi p r1 r2 r1 = p r2 := by
  simp [swapPi]

theorem swapPi_snd (p : Nat → Nat) (r1 r2 : Nat) (h : r2 ≠ r1) :
    swapPi p r1 r2 r2 = p r1 := by
  simp [swapPi, h]

theorem swapPi_ne (p : Nat → Nat) (r1 r2 i : Nat) (h1 : i ≠ r1) (h2 : i ≠ r2) :
    swapPi p r1 r2 i = p i := by
  simp [swapPi, h1, h2]

/-- The invariant of the `for k in 0..N` loop of `lu_decomposition`, for a
state `(l, u, p)` after the first `k` steps:
1. row `p i` of `a` equals row `i` of `L_k · u`, where `L_k` is `l` on its
   first `k` columns extended by identity columns (equivalently: the sum
   below, with the extra `u i j` term for the rows `i ≥ k` not yet fixed);
2. `u` is zero below the diagonal in its first `k` columns;
3. the first `k` rows of `l` carry a unit diagonal and
4. zeros right of the diagonal (within the first `k` columns);
5. the first `k` diagonal entries of `u` are the selected pivots, of
   magnitude above `EPSILON`;
6./7. `p` maps `[0, n)` into `[0, n)` injectively. -/
def LUInv (a : Mat) (n k : Nat) (l u : Mat) (p : Nat → Nat) : Prop :=
  (∀ i < n, ∀ j < n, a (p i) j =
      (∑ t ∈ Finset.range k, l i t * u t j) + (if k ≤ i then u i j else 0))
  ∧ (∀ t < k, ∀ i < n, t < i → u i t = 0)
  ∧ (∀ i < k, l i i = 1)
  ∧ (∀ i < k, ∀ t < k, i < t → l i t = 0)
  ∧ (∀ t < k, EPSILON < |u t t|)
  ∧ (∀ i < n, p i < n)
  ∧ (∀ i < n, ∀ j < n, p i = p j → i = j)

theorem LUInv_init (a : Mat) (n : Nat) :
    LUInv a n 0 (fun i j => if i = j then 1 else 0) a (fun i => i) := by
  refine ⟨?_, ?_, ?_, ?_, ?_, ?_, ?_⟩
  · intro i hi j hj; simp
  · intro t ht; omega
  · intro i hi; omega
  · intro i hi; omega
  · intro t ht; omega
  · intro i hi; exact hi
  · intro i hi j hj h; exact h

/-- The row swap of step `k` (`u.swap_rows(i,k); l.swap_rows(i,k);
pi.swap(i,k)` for a pivot row `i ≠ k`) preserves the invariant at `k`. -/
theorem LUInv_swap (a : Mat) (n k pr : Nat) (l u : Mat) (p : Nat → Nat)
    (hInv : LUInv a n k l u p) (hkpr : k ≤ pr) (hprn : pr < n) (hkn : k < n)
    (hne : pr ≠ k) :
    LUInv a n k (swap_rows l pr k) (swap_rows u pr k) (swapPi p pr k) := by
  obtain ⟨h1, h2, h3, h4, h5, h6, h7⟩ := hInv
  have hkpr2 : k < pr := lt_of_le_of_ne hkpr (Ne.symm hne)
  have hkne : k ≠ pr := Ne.symm hne
  refine ⟨?_, ?_, ?_, ?_, ?_, ?_, ?_⟩
  · intro i hi j hj
    by_cases hik : i = k
    · rw [hik]
      have hsig : (∑ t ∈ Finset.range k, swap_rows l pr k k t * swap_rows u pr k t j)
          = ∑ t ∈ Finset.range k, l pr t * u t j := by
        refine Finset.sum_congr rfl (fun t ht => ?_)
        have htk : t < k := Finset.mem_range.mp ht
        rw [swap_rows_snd l pr k t hkne, swap_rows_ne u pr k t j (by omega) (by omega)]
      rw [swapPi_snd p pr k hkne, hsig, if_pos (le_refl k), swap_rows_snd u pr k j hkne]
      have h1pr := h1 pr hprn j hj
      rw [if_pos hkpr] at h1pr
      exact h1pr
    · by_cases hipr : i = pr
      · rw [hipr]
        have hsig : (∑ t ∈ Finset.range k, swap_rows l pr k pr t * swap_rows u pr k t j)
            = ∑ t ∈ Finset.range k, l k t * u t j := by
          refine Finset.sum_congr rfl (fun t ht => ?_)
          have htk : t < k := Finset.mem_range.mp ht
          rw [swap_rows_fst l pr k t, swap_rows_ne u pr k t j (by omega) (by omega)]
        rw [swapPi_fst p pr k, hsig, if_pos hkpr, swap_rows_fst u pr k j]
        have h1k := h1 k hkn j hj
        rw [if_pos (le_refl k)] at h1k
        exact h1k
      · have hsig : (∑ t ∈ Finset.range k, swap_rows l pr k i t * swap_rows u pr k t j)
            = ∑ t ∈ Finset.range k, l i t * u t j := by
          refine Finset.sum_congr rfl (fun t ht => ?_)
          have htk : t < k := Finset.mem_range.mp ht
          rw [swap_rows_ne l pr k i t hipr hik, swap_rows_ne u pr k t j (by omega) (by omega)]
        rw [swapPi_ne p pr k i hipr hik, hsig, swap_rows_ne u pr k i j hipr hik]
        exact h1 i hi j hj
  · intro t ht i hi hti
    by_cases hik : i = k
    · rw [hik, swap_rows_snd u pr k t hkne]
      exact h2 t ht pr hprn (by omega)
    · by_cases hipr : i = pr
      · rw [hipr, swap_rows_fst u pr k t]
        exact h2 t ht k hkn (by omega)
      · rw [swap_rows_ne u pr k i t hipr hik]
        exact h2 t ht i hi hti
  · intro i hik2
    rw [swap_rows_ne l pr k i i (by omega) (by omega)]
    exact h3 i hik2
  · intro i hik2 t htk hit
    rw [swap_rows_ne l pr k i t (by omega) (by omega)]
    exact h4 i hik2 t htk hit
  · intro t htk
    rw [swap_rows_ne u pr k t t (by omega) (by omega)]
    exact h5 t htk
  · intro i hi
    by_cases hik : i = k
    · rw [hik, swapPi_snd p pr k hkne]; exact h6 pr hprn
    · by_cases hipr : i = pr
      · rw [hipr, swapPi_fst p pr k]; exact h6 k hkn
      · rw [swapPi_ne p pr k i hipr hik]; exact h6 i hi
  · intro i hi j hj hpij
    have key : ∀ z, z < n → swapPi p pr k z = p (if z = pr then k else if z = k then pr else z) := by
      intro z hz
      by_cases hz1 : z = pr
      · rw [hz1, swapPi_fst p pr k, if_pos rfl]
      · by_cases hz2 : z = k
        · rw [hz2, swapPi_snd p pr k hkne]
          rw [if_neg (by omega), if_pos rfl]
        · rw [swapPi_ne p pr k z hz1 hz2, if_neg hz1, if_neg hz2]
    rw [key i hi, key j hj] at hpij
    have hii : (if i = pr then k else if i = k then pr else i) < n := by
      split
      · exact hkn
      · split
        · exact hprn
        · exact hi
    have hjj : (if j = pr then k else if j = k then pr else j) < n := by
      split
      · exact hkn
      · split
        · exact hprn
        · exact hj
    have heq := h7 _ hii _ hjj hpij
    by_cases hi1 : i = pr <;> by_cases hj1 : j = pr <;>
      by_cases hi2 : i = k <;> by_cases hj2 : j = k <;>
      simp [hi1, hj1, hi2, hj2, hkne, hne] at heq ⊢ <;> omega

/-- The elimination phase of step `k` (the inner `for i in (k+1)..N` loop
followed by the `l` fix-up) advances the invariant from `k` to `k + 1`,
provided the pivot `u[k][k]` selected for column `k` exceeds `EPSILON`. -/
theorem LUInv_elim (a : Mat) (n k : Nat) (l u : Mat) (p : Nat → Nat)
    (hInv : LUInv a n k l u p) (hkn : k < n) (hpivot : EPSILON < |u k k|) :
    LUInv a n (k + 1)
      (fixL ((List.range' (k + 1) (n - (k + 1))).foldl
        (fun ul2 i2 => luElimStep ul2 k i2 n) (u, l)).2 k)
      (((List.range' (k + 1) (n - (k + 1))).foldl
        (fun ul2 i2 => luElimStep ul2 k i2 n) (u, l)).1)
      p := by
  obtain ⟨h1, h2, h3, h4, h5, h6, h7⟩ := hInv
  have heps : (0 : ℚ) < EPSILON := by norm_num [EPSILON]
  have hukk : u k k ≠ 0 := abs_pos.mp (lt_trans heps hpivot)
  set rs := List.range' (k + 1) (n - (k + 1)) with hrs_def
  have hmem : ∀ r, r ∈ rs ↔ k + 1 ≤ r ∧ r < n := by
    intro r; rw [hrs_def, List.mem_range'_1]; omega
  have hnd : rs.Nodup := List.nodup_range' _ _
  have hknotin : k ∉ rs := fun hk => by have := (hmem k).mp hk; omega
  have pu_not : ∀ r c, r ∉ rs →
      ((rs.foldl (fun ul2 i2 => luElimStep ul2 k i2 n) (u, l)).1) r c = u r c :=
    fun r c hr => luElimFold_fst_not_mem k n rs (u, l) r c hr
  have pu_mem : ∀ r c, r ∈ rs →
      ((rs.foldl (fun ul2 i2 => luElimStep ul2 k i2 n) (u, l)).1) r c =
        if k ≤ c ∧ c < n then u r c - u r k / u k k * u k c else u r c :=
    fun r c hr => luElimFold_fst_mem k n rs (u, l) r c hr hnd hknotin
  have pl_not : ∀ r c, r ∉ rs ∨ c ≠ k →
      ((rs.foldl (fun ul2 i2 => luElimStep ul2 k i2 n) (u, l)).2) r c = l r c :=
    fun r c hr => luElimFold_snd_not_mem k n rs (u, l) r c hr
  have pl_mem : ∀ r, r ∈ rs →
      ((rs.foldl (fun ul2 i2 => luElimStep ul2 k i2 n) (u, l)).2) r k =
        u r k / u k k :=
    fun r hr => luElimFold_snd_mem k n rs (u, l) r hr hnd hknotin
  set u2 := ((rs.foldl (fun ul2 i2 => luElimStep ul2 k i2 n) (u, l)).1) with hu2
  set l2 := ((rs.foldl (fun ul2 i2 => luElimStep ul2 k i2 n) (u, l)).2) with hl2
  have hl3 : ∀ r c, fixL l2 k r c =
      if r = k ∧ c = k then 1 else if r < k ∧ c = k then 0 else l2 r c :=
    fun r c => rfl
  refine ⟨?_, ?_, ?_, ?_, ?_, h6, h7⟩
  · intro i hi j hj
    have hsum0 : (∑ t ∈ Finset.range (k + 1), fixL l2 k i t * u2 t j)
        = (∑ t ∈ Finset.range k, fixL l2 k i t * u2 t j) + fixL l2 k i k * u2 k j :=
      Finset.sum_range_succ _ k
    have hsumk : (∑ t ∈ Finset.range k, fixL l2 k i t * u2 t j)
        = ∑ t ∈ Finset.range k, l i t * u t j := by
      refine Finset.sum_congr rfl (fun t ht => ?_)
      have htk : t < k := Finset.mem_range.mp ht
      have e1 : fixL l2 k i t = l i t := by
        rw [hl3, if_neg (by omega), if_neg (by omega), pl_not i t (Or.inr (by omega))]
      have e2 : u2 t j = u t j := pu_not t j (fun hm => by have := (hmem t).mp hm; omega)
      rw [e1, e2]
    have hu2kj : u2 k j = u k j := pu_not k j hknotin
    rcases Nat.lt_trichotomy i k with hik | hik | hik
    · have elk : fixL l2 k i k = 0 := by
        rw [hl3, if_neg (by omega), if_pos ⟨hik, rfl⟩]
      rw [hsum0, hsumk, elk, hu2kj, if_neg (by omega)]
      have h1i := h1 i hi j hj
      rw [if_neg (by omega)] at h1i
      rw [h1i]; ring
    · have elk : fixL l2 k i k = 1 := by rw [hik, hl3, if_pos ⟨rfl, rfl⟩]
      rw [hsum0, hsumk, elk, hu2kj, if_neg (by omega)]
      have h1i := h1 i hi j hj
      rw [if_pos (by omega)] at h1i
      rw [h1i, hik]; ring
    · have himem : i ∈ rs := (hmem i).mpr ⟨by omega, hi⟩
      have elk : fixL l2 k i k = u i k / u k k := by
        rw [hl3, if_neg (by omega), if_neg (by omega)]
        exact pl_mem i himem
      have h1i := h1 i hi j hj
      rw [if_pos (by omega)] at h1i
      rw [hsum0, hsumk, elk, hu2kj, if_pos (by omega), pu_mem i j himem]
      by_cases hjk : k ≤ j
      · rw [if_pos ⟨hjk, hj⟩, h1i]; ring
      · rw [if_neg (by omega), h1i]
        have hukj : u k j = 0 := h2 j (by omega) k hkn (by omega)
        rw [hukj]; ring
  · intro t ht i hi hti
    rcases Nat.lt_or_ge i (k + 1) with hik | hik
    · have hnotm : i ∉ rs := fun hm => by have := (hmem i).mp hm; omega
      rw [pu_not i t hnotm]
      exact h2 t (by omega) i hi hti
    · have himem : i ∈ rs := (hmem i).mpr ⟨hik, hi⟩
      rw [pu_mem i t himem]
      rcases Nat.lt_or_ge t k with htk | htk
      · rw [if_neg (by omega)]
        exact h2 t htk i hi hti
      · have htk2 : t = k := by omega
        rw [htk2, if_pos ⟨le_refl k, hkn⟩, div_mul_cancel₀ (u i k) hukk, sub_self]
  · intro i hik
    rcases Nat.lt_or_ge i k with hik2 | hik2
    · rw [hl3, if_neg (by omega), if_neg (by omega), pl_not i i (Or.inr (by omega))]
      exact h3 i hik2
    · have hik3 : i = k := by omega
      rw [hik3, hl3, if_pos ⟨rfl, rfl⟩]
  · intro i hik t htk hit
    rcases Nat.lt_or_ge t k with htk2 | htk2
    · rw [hl3, if_neg (by omega), if_neg (by omega), pl_not i t (Or.inr (by omega))]
      exact h4 i (by omega) t htk2 hit
    · have htk3 : t = k := by omega
      rw [htk3, hl3, if_neg (by omega), if_pos ⟨by omega, rfl⟩]
  · intro t htk
    rcases Nat.lt_or_ge t k with htk2 | htk2
    · rw [pu_not t t (fun hm => by have := (hmem t).mp hm; omega)]
      exact h5 t htk2
    · have htk3 : t = k := by omega
      rw [htk3, pu_not k k hknotin]
      exact hpivot

/-- Once the pivot search has panicked, the remaining loop does nothing. -/
theorem foldl_luStep_none (n : Nat) : ∀ ks : List Nat, ks.foldl (luStep n) none = none := by
  intro ks
  induction ks with
  | nil => rfl
  | cons k t ih => rw [List.foldl_cons]; exact ih

/-- One successful `luStep` advances the invariant. -/
theorem LUInv_step (a : Mat) (n k : Nat) (l u : Mat) (p : Nat → Nat)
    (hInv : LUInv a n k l u p) (hkn : k < n) (s2 : Mat × Mat × (Nat → Nat))
    (hstep : luStep n (some (l, u, p)) k = some s2) :
    LUInv a n (k + 1) s2.1 s2.2.1 s2.2.2 := by
  cases hpv : selectPivot u k n with
  | none =>
    simp only [luStep, hpv] at hstep
    exact Option.noConfusion hstep
  | some iv =>
    obtain ⟨i, v⟩ := iv
    simp only [luStep, hpv] at hstep
    obtain rfl := Option.some.inj hstep
    obtain ⟨hki, hin, hv, habs⟩ := selectPivot_mem hpv
    by_cases hne : i = k
    · have e1 : (if i ≠ k then swap_rows l i k else l) = l := by simp [hne]
      have e2 : (if i ≠ k then swap_rows u i k else u) = u := by simp [hne]
      have e3 : (if i ≠ k then swapPi p i k else p) = p := by simp [hne]
      simp only [e1, e2, e3]
      have hv2 : v = u k k := by rw [hne] at hv; exact hv
      have hpivot : EPSILON < |u k k| := by rw [← hv2]; exact habs
      exact LUInv_elim a n k l u p ⟨hInv.1, hInv.2.1, hInv.2.2.1, hInv.2.2.2.1,
        hInv.2.2.2.2.1, hInv.2.2.2.2.2.1, hInv.2.2.2.2.2.2⟩ hkn hpivot
    · have e1 : (if i ≠ k then swap_rows l i k else l) = swap_rows l i k := by simp [hne]
      have e2 : (if i ≠ k then swap_rows u i k else u) = swap_rows u i k := by simp [hne]
      have e3 : (if i ≠ k then swapPi p i k else p) = swapPi p i k := by simp [hne]
      simp only [e1, e2, e3]
      have hInv2 := LUInv_swap a n k i l u p hInv hki hin hkn hne
      have hpivot : EPSILON < |swap_rows u i k k k| := by
        rw [swap_rows_snd u i k k (Ne.symm hne), ← hv]; exact habs
      exact LUInv_elim a n k (swap_rows l i k) (swap_rows u i k) (swapPi p i k)
        hInv2 hkn hpivot

/-- Folding `luStep` over the remaining pivot columns turns the invariant
at `k` into the invariant at `n`. -/
theorem LUInv_fold (a : Mat) (n : Nat) :
    ∀ (cnt k : Nat) (l u : Mat) (p : Nat → Nat) (s2 : Mat × Mat × (Nat → Nat)),
      k + cnt = n → LUInv a n k l u p →
      (List.range' k cnt).foldl (luStep n) (some (l, u, p)) = some s2 →
      LUInv a n n s2.1 s2.2.1 s2.2.2 := by
  intro cnt
  induction cnt with
  | zero =>
    intro k l u p s2 hk hInv h
    obtain rfl := Option.some.inj h
    have hkn : k = n := by omega
    rw [hkn] at hInv
    exact hInv
  | succ c ih =>
    intro k l u p s2 hk hInv h
    rw [List.range'_succ, List.foldl_cons] at h
    cases hs1 : luStep n (some (l, u, p)) k with
    | none =>
      rw [hs1, foldl_luStep_none] at h
      exact Option.noConfusion h
    | some s1 =>
      have hkn : k < n := by omega
      have hInv1 := LUInv_step a n k l u p hInv hkn s1 hs1
      rw [hs1] at h
      have h2 : (List.range' (k + 1) c).foldl (luStep n) (some (s1.1, s1.2.1, s1.2.2)) = some s2 := by
        rw [show (s1.1, s1.2.1, s1.2.2) = s1 from rfl]
        exact h
      exact ih (k + 1) s1.1 s1.2.1 s1.2.2 s2 (by omega) hInv1 h2

/-- A successful run of `lu_decomposition` establishes the full invariant. -/
theorem lu_decomposition_inv (n : Nat) (a : Mat) (s2 : Mat × Mat × (Nat → Nat))
    (h : lu_decomposition n a = some s2) : LUInv a n n s2.1 s2.2.1 s2.2.2 := by
  unfold lu_decomposition at h
  rw [List.range_eq_range'] at h
  exact LUInv_fold a n n 0 (fun i j => if i = j then 1 else 0) a (fun i => i) s2
    (by omega) (LUInv_init a n) h

/-! ### Determinant consequences of a successful LU run -/

/-- If `lu_decomposition` returns (no SingularMatrix panic), the input
matrix has nonzero determinant: `P·A = L·U` exactly, `L` has unit
diagonal, and `U` is triangular with every diagonal pivot above `EPSILON`
in magnitude. -/
theorem lu_success_det_ne_zero (n : Nat) (a : Mat) (l u : Mat) (p : Nat → Nat)
    (h : lu_decomposition n a = some (l, u, p)) :
    Matrix.det (Matrix.of fun i j : Fin n => a i j) ≠ 0 := by
  have hInv := lu_decomposition_inv n a (l, u, p) h
  obtain ⟨h1, h2, h3, h4, h5, h6, h7⟩ := hInv
  have heps : (0 : ℚ) < EPSILON := by norm_num [EPSILON]
  have hf : Function.Injective (fun i : Fin n => (⟨p i, h6 i i.isLt⟩ : Fin n)) := by
    intro i j hij
    exact Fin.ext (h7 i i.isLt j j.isLt (congrArg Fin.val hij))
  have hbij := Finite.injective_iff_bijective.mp hf
  have hLU : ((Matrix.of fun i j : Fin n => a i j).submatrix (Equiv.ofBijective _ hbij) id)
      = (Matrix.of fun i j : Fin n => l i j) * (Matrix.of fun i j : Fin n => u i j) := by
    ext i j
    have h1i := h1 i i.isLt j j.isLt
    rw [if_neg (by omega), add_zero] at h1i
    rw [Matrix.mul_apply]
    rw [show (∑ t : Fin n, (Matrix.of fun i2 j2 : Fin n => l i2 j2) i t *
          (Matrix.of fun i2 j2 : Fin n => u i2 j2) t j)
        = ∑ t ∈ Finset.range n, l i t * u t j from
      Fin.sum_univ_eq_sum_range (fun t => l i t * u t j) n]
    exact h1i
  have hLtri : (Matrix.of fun i j : Fin n => l i j).BlockTriangular OrderDual.toDual := by
    intro i j hij
    exact h4 i.val i.isLt j.val j.isLt hij
  have hUtri : (Matrix.of fun i j : Fin n => u i j).BlockTriangular id := by
    intro i j hij
    exact h2 j.val j.isLt i.val i.isLt hij
  have hdetL : (Matrix.of fun i j : Fin n => l i j).det = 1 := by
    rw [Matrix.det_of_lowerTriangular _ hLtri]
    exact Finset.prod_eq_one (fun i _ => h3 i.val i.isLt)
  have hdetU : (Matrix.of fun i j : Fin n => u i j).det ≠ 0 := by
    rw [Matrix.det_of_upperTriangular hUtri]
    rw [Finset.prod_ne_zero_iff]
    intro i _
    exact abs_pos.mp (lt_trans heps (h5 i.val i.isLt))
  have hperm := Matrix.det_permute (Equiv.ofBijective _ hbij)
    (Matrix.of fun i j : Fin n => a i j)
  intro h0
  rw [h0, mul_zero, hLU, Matrix.det_mul, hdetL, one_mul] at hperm
  exact hdetU hperm

/-! ### The triangular substitution loops compute the textbook recurrences -/

/-- A left fold accumulating `+ f j` over `range t` is the sum of `f`. -/
theorem foldl_range_sum (f : Nat → ℚ) :
    ∀ t, (List.range t).foldl (fun s2 j => s2 + f j) 0 = ∑ j ∈ Finset.range t, f j := by
  intro t
  induction t with
  | zero => simp
  | succ c ih =>
    rw [List.range_succ, List.foldl_append, List.foldl_cons, List.foldl_nil, ih,
      Finset.sum_range_succ]

/-- A left fold accumulating `+ f j` over `range' a len` is the sum of `f`
over `[a, a + len)`. -/
theorem foldl_range'_sum (f : Nat → ℚ) (a len : Nat) :
    (List.range' a len).foldl (fun s2 j => s2 + f j) 0 =
      ∑ j ∈ Finset.Ico a (a + len), f j := by
  rw [List.range'_eq_map_range, List.foldl_map, Finset.sum_Ico_eq_sum_range]
  simp only [Nat.add_sub_cancel_left]
  exact foldl_range_sum (fun j => f (a + j)) len

/-- One-step unfolding of the forward-substitution loop. -/
theorem fsGo_succ (aM : Mat) (b : Nat → ℚ) (t : Nat) :
    fsGo aM b (t + 1) = fun r =>
      if r = t then
        (b t - (List.range t).foldl (fun s2 j => s2 + aM t j * fsGo aM b t j) 0) / aM t t
      else fsGo aM b t r := rfl

/-- Entries already filled by `fsGo` are stable under further steps. -/
theorem fsGo_stable (aM : Mat) (b : Nat → ℚ) :
    ∀ t2 t r, t ≤ t2 → r < t → fsGo aM b t2 r = fsGo aM b t r := by
  intro t2
  induction t2 with
  | zero =>
    intro t r ht hr
    have ht0 : t = 0 := by omega
    rw [ht0]
  | succ c ih =>
    intro t r ht hr
    rcases Nat.eq_or_lt_of_le ht with he | hlt
    · rw [he]
    · have hne : r ≠ c := by omega
      rw [fsGo_succ]
      dsimp only
      rw [if_neg hne]
      exact ih t r (by omega) hr

/-- The value filled by `forward_substitution` at row `i` satisfies the
forward recurrence `y_i = (b_i - sum_{j<i} a_{ij} y_j) / a_{ii}`. -/
theorem fsGo_spec (aM : Mat) (b : Nat → ℚ) (n : Nat) :
    ∀ i, i < n →
      fsGo aM b n i = (b i - ∑ j ∈ Finset.range i, aM i j * fsGo aM b n j) / aM i i := by
  intro i hi
  have h1 : fsGo aM b n i = fsGo aM b (i + 1) i := fsGo_stable aM b n (i + 1) i hi (by omega)
  rw [h1, fsGo_succ]
  dsimp only
  rw [if_pos rfl, foldl_range_sum (fun j => aM i j * fsGo aM b i j) i]
  have hsum : (∑ j ∈ Finset.range i, aM i j * fsGo aM b i j)
      = ∑ j ∈ Finset.range i, aM i j * fsGo aM b n j := by
    refine Finset.sum_congr rfl (fun j hj => ?_)
    have hji : j < i := Finset.mem_range.mp hj
    rw [fsGo_stable aM b n i j (le_of_lt hi) hji]
  rw [hsum]

/-- One-step unfolding of the back-substitution loop. -/
theorem bsGo_succ (aM : Mat) (b : Nat → ℚ) (n t : Nat) :
    bsGo aM b n (t + 1) = fun r =>
      if r = n - (t + 1) then
        (b (n - (t + 1)) - (List.range' ((n - (t + 1)) + 1) (n - ((n - (t + 1)) + 1))).foldl
          (fun s2 j => s2 + aM (n - (t + 1)) j * bsGo aM b n t j) 0) /
            aM (n - (t + 1)) (n - (t + 1))
      else bsGo aM b n t r := rfl

/-- Entries already filled by `bsGo` (rows `≥ n - t`) are stable. -/
theorem bsGo_stable (aM : Mat) (b : Nat → ℚ) (n : Nat) :
    ∀ t2 t r, t ≤ t2 → t2 ≤ n → n - t ≤ r → bsGo aM b n t2 r = bsGo aM b n t r := by
  intro t2
  induction t2 with
  | zero =>
    intro t r ht _ _
    have ht0 : t = 0 := by omega
    rw [ht0]
  | succ c ih =>
    intro t r ht hcn hr
    rcases Nat.eq_or_lt_of_le ht with he | hlt
    · rw [he]
    · have hne : r ≠ n - (c + 1) := by omega
      rw [bsGo_succ]
      dsimp only
      rw [if_neg hne]
      exact ih t r (by omega) (by omega) hr

/-- The value filled by `back_substitution` at row `i` satisfies the
backward recurrence `x_i = (b_i - sum_{j>i} a_{ij} x_j) / a_{ii}`. -/
theorem bsGo_spec (aM : Mat) (b : Nat → ℚ) (n : Nat) :
    ∀ i, i < n →
      bsGo aM b n n i =
        (b i - ∑ j ∈ Finset.Ico (i + 1) n, aM i j * bsGo aM b n n j) / aM i i := by
  intro i hi
  have h1 : bsGo aM b n n i = bsGo aM b n (n - i) i :=
    bsGo_stable aM b n n (n - i) i (by omega) (le_refl n) (by omega)
  have hni : n - i = (n - (i + 1)) + 1 := by omega
  rw [h1, hni, bsGo_succ]
  have hidx : n - (n - (i + 1) + 1) = i := by omega
  rw [hidx]
  dsimp only
  rw [if_pos rfl,
    foldl_range'_sum (fun j => aM i j * bsGo aM b n (n - (i + 1)) j) (i + 1) (n - (i + 1))]
  have hn2 : (i + 1) + (n - (i + 1)) = n := by omega
  rw [hn2]
  have hsum : (∑ j ∈ Finset.Ico (i + 1) n, aM i j * bsGo aM b n (n - (i + 1)) j)
      = ∑ j ∈ Finset.Ico (i + 1) n, aM i j * bsGo aM b n n j := by
    refine Finset.sum_congr rfl (fun j hj => ?_)
    have hji := Finset.mem_Ico.mp hj
    rw [bsGo_stable aM b n n (n - (i + 1)) j (by omega) (le_refl n) (by omega)]
  rw [hsum]

/-! ### Power iteration: the loop against its unconditional trajectory -/

/-- Folding `rustMaxStep` from a `some` accumulator stays `some`. -/
theorem foldl_rustMaxStep_isSome :
    ∀ (l : List (Nat × ℚ)) (a2 : Nat × ℚ), (l.foldl rustMaxStep (some a2)).isSome = true := by
  intro l
  induction l with
  | nil => intro a2; rfl
  | cons x t ih =>
    intro a2
    rw [List.foldl_cons]
    rw [show rustMaxStep (some a2) x = if |a2.2| > |x.2| then some a2 else some x from rfl]
    by_cases hc : |a2.2| > |x.2|
    · rw [if_pos hc]; exact ih a2
    · rw [if_neg hc]; exact ih x

/-- Over a nonzero dimension the `max_by` of ex4.rs always finds an index
(its `expect("Vector is zero")` can only fire on an empty iterator). -/
theorem rustMaxByAbs_map_isSome (n : Nat) (hn : 0 < n) (x : Nat → ℚ) :
    ∃ iv, rustMaxByAbs ((List.range n).map (fun i => (i, x i))) = some iv := by
  obtain ⟨m, rfl⟩ : ∃ m, n = m + 1 := ⟨n - 1, by omega⟩
  rw [List.range_succ_eq_map, List.map_cons]
  have h := foldl_rustMaxStep_isSome
    (((List.range m).map Nat.succ).map (fun i => (i, x i))) (0, x 0)
  rw [Option.isSome_iff_exists] at h
  obtain ⟨iv, hiv⟩ := h
  exact ⟨iv, hiv⟩

/-- One-step unfolding of the power-iteration loop. -/
theorem piLoop_succ (sq : ℚ → ℚ) (n : Nat) (a : Mat) (fuel count : Nat)
    (mu : List ℚ) (x : Nat → ℚ) :
    piLoop sq n a (fuel + 1) count mu x =
      match rustMaxByAbs ((List.range n).map (fun i => (i, x i))) with
      | none => .error .zeroVector
      | some iv =>
        match mu.getLast? with
        | some it =>
          if |(|it| - |(matVec n a x iv.1 / x iv.1)|)| < EPSILON then
            .ok ⟨matVec n a x iv.1 / x iv.1, x, count⟩
          else piLoop sq n a fuel (count + 1) (mu ++ [matVec n a x iv.1 / x iv.1])
            (vecNormalized sq n (matVec n a x))
        | none => piLoop sq n a fuel (count + 1) (mu ++ [matVec n a x iv.1 / x iv.1])
            (vecNormalized sq n (matVec n a x)) := rfl

/-- One-step unfolding of the trajectory. -/
theorem piTraj_succ (sq : ℚ → ℚ) (n : Nat) (a : Mat) (t : Nat) :
    piTraj sq n a (t + 1) =
      match rustMaxByAbs ((List.range n).map (fun i => (i, (piTraj sq n a t).2 i))) with
      | none => piTraj sq n a t
      | some iv =>
        ((piTraj sq n a t).1 ++
            [matVec n a (piTraj sq n a t).2 iv.1 / (piTraj sq n a t).2 iv.1],
          vecNormalized sq n (matVec n a (piTraj sq n a t).2)) := rfl

/-- If the convergence test fails along the whole remaining trajectory,
the loop exhausts its fuel and reports divergence. -/
theorem piLoop_diverges (sq : ℚ → ℚ) (n : Nat) (a : Mat) (hn : 0 < n) :
    ∀ (fuel t count : Nat),
      (∀ s, t ≤ s → s < t + fuel → ¬ piConvergesAt sq n a s) →
      piLoop sq n a fuel count (piTraj sq n a t).1 (piTraj sq n a t).2 =
        .error .divergence := by
  intro fuel
  induction fuel with
  | zero => intro t count _; rfl
  | succ f ih =>
    intro t count h
    obtain ⟨iv, hiv⟩ := rustMaxByAbs_map_isSome n hn (piTraj sq n a t).2
    rw [piLoop_succ, hiv]
    have htraj : piTraj sq n a (t + 1) =
        ((piTraj sq n a t).1 ++
            [matVec n a (piTraj sq n a t).2 iv.1 / (piTraj sq n a t).2 iv.1],
          vecNormalized sq n (matVec n a (piTraj sq n a t).2)) := by
      rw [piTraj_succ, hiv]
    have hmu : ((piTraj sq n a t).1 ++
        [matVec n a (piTraj sq n a t).2 iv.1 / (piTraj sq n a t).2 iv.1])
          = (piTraj sq n a (t + 1)).1 := by rw [htraj]
    have hx : vecNormalized sq n (matVec n a (piTraj sq n a t).2)
          = (piTraj sq n a (t + 1)).2 := by rw [htraj]
    have hrec := ih (t + 1) (count + 1) (fun s hs1 hs2 => h s (by omega) (by omega))
    cases hlast : (piTraj sq n a t).1.getLast? with
    | none =>
      dsimp only
      rw [hmu, hx]
      exact hrec
    | some it =>
      have hnconv : ¬ piConvergesAt sq n a t := h t (le_refl t) (by omega)
      have hcondF : ¬ (|(|it| - |(matVec n a (piTraj sq n a t).2 iv.1 /
          (piTraj sq n a t).2 iv.1)|)| < EPSILON) := by
        intro hcond
        apply hnconv
        unfold piConvergesAt
        dsimp only
        rw [hiv]
        dsimp only
        rw [hlast]
        exact hcond
      dsimp only
      rw [if_neg hcondF, hmu, hx]
      exact hrec

/-- The full solver reports divergence when the convergence test never
holds within the iteration budget. -/
theorem solve_by_power_iteration_diverges (sq : ℚ → ℚ) (n : Nat) (a : Mat)
    (hn : 0 < n) (h : ∀ t, t < MAX_ITERATIONS - 1 → ¬ piConvergesAt sq n a t) :
    solve_by_power_iteration sq n a = .error .divergence := by
  have h0 := piLoop_diverges sq n a hn (MAX_ITERATIONS - 1) 0 1
    (fun s hs1 hs2 => h s (by omega))
  exact h0

/-! ### The column-major `Matrix` container -/

/-- `from_fn` calls `f` once per entry: entry `(i, j)` of the built
matrix is `f i j` (for in-range indices). -/
theorem MatrixQ.entry_from_fn (N M : Nat) (f : Nat → Nat → ℚ) (i j : Nat)
    (hi : i < N) (hj : j < M) : (MatrixQ.from_fn N M f).entry i j = f i j := by
  unfold MatrixQ.from_fn MatrixQ.entry
  have hj2 : j < ((List.range M).map
      (fun j => (List.range N).map (fun i => f i j))).length := by
    rw [List.length_map, List.length_range]; exact hj
  rw [List.getD_eq_getElem _ _ hj2, List.getElem_map, List.getElem_range]
  have hi2 : i < ((List.range N).map (fun i => f i j)).length := by
    rw [List.length_map, List.length_range]; exact hi
  rw [List.getD_eq_getElem _ _ hi2, List.getElem_map, List.getElem_range]

/-- `from_fn` builds a well-formed `M`-columns-by-`N`-rows container. -/
theorem MatrixQ.wf_from_fn (N M : Nat) (f : Nat → Nat → ℚ) :
    (MatrixQ.from_fn N M f).wf := by
  constructor
  · rw [show (MatrixQ.from_fn N M f).columns = (List.range M).map
      (fun j => (List.range N).map (fun i => f i j)) from rfl]
    rw [List.length_map, List.length_range]
  · intro c hc
    rw [show (MatrixQ.from_fn N M f).columns = (List.range M).map
      (fun j => (List.range N).map (fun i => f i j)) from rfl] at hc
    obtain ⟨j, _, rfl⟩ := List.mem_map.mp hc
    rw [List.length_map, List.length_range]

/-- Entry `(i, j)` of the transpose is entry `(j, i)` of the original. -/
theorem MatrixQ.transpose_entry {N M : Nat} (m : MatrixQ N M) (i j : Nat)
    (hi : i < M) (hj : j < N) : m.transpose.entry i j = m.entry j i :=
  MatrixQ.entry_from_fn M N (fun i2 j2 => m.entry j2 i2) i j hi hj

/-- Transposing twice rebuilds the matrix exactly (`transpose` is an
involution on well-formed matrices). -/
theorem MatrixQ.transpose_transpose {N M : Nat} (m : MatrixQ N M) (hwf : m.wf) :
    m.transpose.transpose = m := by
  obtain ⟨hlen, hcols⟩ := hwf
  obtain ⟨cols⟩ := m
  have hout : (MatrixQ.mk (N := N) (M := M) cols).transpose.transpose.columns = cols := by
    rw [show (MatrixQ.mk (N := N) (M := M) cols).transpose.transpose.columns
        = (List.range M).map (fun j => (List.range N).map
            (fun i => (MatrixQ.mk (N := N) (M := M) cols).transpose.entry j i)) from rfl]
    refine List.ext_getElem ?_ ?_
    · rw [List.length_map, List.length_range]
      exact hlen.symm
    · intro j hj1 hj2
      rw [List.getElem_map, List.getElem_range]
      have hjM : j < M := by
        rw [List.length_map, List.length_range] at hj1
        exact hj1
      refine List.ext_getElem ?_ ?_
      · rw [List.length_map, List.length_range]
        exact (hcols cols[j] (List.getElem_mem hj2)).symm
      · intro i hi1 hi2
        rw [List.getElem_map, List.getElem_range]
        have hiN : i < N := by
          rw [List.length_map, List.length_range] at hi1
          exact hi1
        rw [MatrixQ.transpose_entry (MatrixQ.mk (N := N) (M := M) cols) j i hjM hiN]
        show (cols.getD j []).getD i 0 = cols[j][i]
        rw [List.getD_eq_getElem _ _ hj2, List.getD_eq_getElem _ _ hi2]
  exact congrArg MatrixQ.mk hout

/-! ### Concrete inputs from the repository's own tests -/

/-- The 3×4 augmented matrix of ex1.rs's `test_do_gaussian_elimination`. -/
def exampleAB : Mat := matOfRows [[2, 1, -1, 8], [-3, -1, 2, -11], [-2, 1, 2, -3]]

/-- The expected elimination result from that test (exact rationals). -/
def exampleABExpected : Mat :=
  matOfRows [[-3, -1, 2, -11], [0, 5/3, 2/3, 13/3], [0, 0, 1/5, -1/5]]

/-- The elimination output on `exampleAB` (defined, since the run succeeds). -/
def exampleGEResult : Mat :=
  (do_gaussian_elimination_for_n_n1 3 exampleAB).getD (fun _ _ => 0)

/-- The 3×3 matrix of ex23.rs's `test_lu_decomposition`. -/
def exampleA3 : Mat := matOfRows [[2, 1, -1], [-3, -1, 2], [-2, 1, 2]]

/-- The LU output on `exampleA3` (defined, since the run succeeds). -/
def exampleLUP : Mat × Mat × (Nat → Nat) :=
  (lu_decomposition 3 exampleA3).getD ((fun _ _ => 0), (fun _ _ => 0), fun i => i)

/-- A 2×2 matrix exercising a pivot swap, for the C8 witness. -/
def exampleA2 : Mat := matOfRows [[1, 2], [3, 4]]

/-- The LU output on `exampleA2`. -/
def exampleLUP2 : Mat × Mat × (Nat → Nat) :=
  (lu_decomposition 2 exampleA2).getD ((fun _ _ => 0), (fun _ _ => 0), fun i => i)

/-! ### C1 -/

/-- C1: for every square matrix accepted by `lu_decomposition` (no
SingularMatrix report), the returned triple satisfies `P·A = L·U` within
`EPSILON` (here: exactly, since the model computes in `ℚ`), where row `i`
of `P·A` is row `pi i` of `A`; `L` is unit-lower-triangular and `U` is
upper-triangular. -/
theorem lu_decomposition_plu_correct (n : Nat) (a l u : Mat) (p : Nat → Nat)
    (h : lu_decomposition n a = some (l, u, p)) :
    (∀ i < n, ∀ j < n,
        |a (p i) j - ∑ t ∈ Finset.range n, l i t * u t j| ≤ EPSILON)
    ∧ (∀ i < n, l i i = 1)
    ∧ (∀ i < n, ∀ j < n, i < j → l i j = 0)
    ∧ (∀ i < n, ∀ j < n, j < i → u i j = 0) := by
  have hInv := lu_decomposition_inv n a (l, u, p) h
  obtain ⟨h1, h2, h3, h4, h5, h6, h7⟩ := hInv
  refine ⟨?_, fun i hi => h3 i hi, fun i hi j hj hij => h4 i hi j hj hij,
    fun i hi j hj hji => h2 j hj i hi hji⟩
  intro i hi j hj
  have e := h1 i hi j hj
  rw [if_neg (by omega), add_zero] at e
  rw [e, sub_self, abs_zero]
  norm_num [EPSILON]

/-- Witness for C1 on the 3×3 matrix of the repository's own LU test. -/
theorem lu_decomposition_plu_correct_witness :
    lu_decomposition 3 exampleA3 = some (exampleLUP.1, exampleLUP.2.1, exampleLUP.2.2)
    ∧ (∀ i < 3, ∀ j < 3, |exampleA3 (exampleLUP.2.2 i) j -
        ∑ t ∈ Finset.range 3, exampleLUP.1 i t * exampleLUP.2.1 t j| ≤ EPSILON) :=
  ⟨by with_unfolding_all rfl,
   (lu_decomposition_plu_correct 3 exampleA3 exampleLUP.1 exampleLUP.2.1 exampleLUP.2.2
      (by with_unfolding_all rfl)).1⟩

/-! ### C8 -/

/-- C8: for every input on which `lu_decomposition` returns, the returned
`pi` is a bijection on `{0..N}`: into the range, no duplicates, and no
missing index, regardless of the pivot swaps performed. -/
theorem lu_pi_is_bijection (n : Nat) (a l u : Mat) (p : Nat → Nat)
    (h : lu_decomposition n a = some (l, u, p)) :
    (∀ i < n, p i < n) ∧ (∀ i < n, ∀ j < n, p i = p j → i = j)
    ∧ (∀ v < n, ∃ i, i < n ∧ p i = v) := by
  have hInv := lu_decomposition_inv n a (l, u, p) h
  obtain ⟨-, -, -, -, -, h6, h7⟩ := hInv
  refine ⟨h6, h7, ?_⟩
  intro v hv
  have hf : Function.Injective (fun i : Fin n => (⟨p i, h6 i i.isLt⟩ : Fin n)) :=
    fun i j hij => Fin.ext (h7 i i.isLt j j.isLt (congrArg Fin.val hij))
  have hbij := Finite.injective_iff_bijective.mp hf
  obtain ⟨i, hi⟩ := hbij.2 ⟨v, hv⟩
  exact ⟨i.val, i.isLt, congrArg Fin.val hi⟩

/-- Witness for C8 on a 2×2 input whose pivoting performs a swap. -/
theorem lu_pi_is_bijection_witness :
    lu_decomposition 2 exampleA2 = some (exampleLUP2.1, exampleLUP2.2.1, exampleLUP2.2.2)
    ∧ (∀ v < 2, ∃ i, i < 2 ∧ exampleLUP2.2.2 i = v) :=
  ⟨by with_unfolding_all rfl,
   (lu_pi_is_bijection 2 exampleA2 exampleLUP2.1 exampleLUP2.2.1 exampleLUP2.2.2
      (by with_unfolding_all rfl)).2.2⟩

/-! ### C2 -/

/-- The augmented matrix `[A | b]` for `A = [[1,0],[0,0]]` (zero second
column) and `b = (1,1)`. -/
def singularGEAug : Mat := matOfRows [[1, 0, 1], [0, 0, 1]]

/-- Counterexample to C2 as stated: this 2×2 coefficient matrix has a zero
column, yet `do_gaussian_elimination_for_n_n1` (whose pivot loop stops at
column `N-2`) completes WITHOUT reporting SingularMatrix. -/
theorem singular_zero_column_ge_counterexample :
    (∀ i < 2, singularGEAug i 1 = 0)
    ∧ (do_gaussian_elimination_for_n_n1 2 singularGEAug).isSome = true := by
  constructor
  · with_unfolding_all decide
  · with_unfolding_all decide

/-- C2 (amended): `lu_decomposition`, whose pivot loop visits all `N`
columns, reports SingularMatrix (returns `none`) on EVERY matrix with a
zero column or two identical rows; Gaussian elimination does not (see the
counterexample for a zero last column). -/
theorem singular_matrix_rejected_by_lu (n : Nat) (a : Mat)
    (h : (∃ c, c < n ∧ ∀ i < n, a i c = 0) ∨
         (∃ r1 r2, r1 < r2 ∧ r2 < n ∧ ∀ j < n, a r1 j = a r2 j)) :
    lu_decomposition n a = none := by
  cases hlu : lu_decomposition n a with
  | none => rfl
  | some s =>
    exfalso
    have hdet := lu_success_det_ne_zero n a s.1 s.2.1 s.2.2 (by rw [hlu])
    apply hdet
    rcases h with ⟨c, hc, hz⟩ | ⟨r1, r2, h12, h2n, he⟩
    · exact Matrix.det_eq_zero_of_column_eq_zero ⟨c, hc⟩ (fun i => hz i.val i.isLt)
    · refine Matrix.det_zero_of_row_eq (i := (⟨r1, by omega⟩ : Fin n))
        (j := (⟨r2, h2n⟩ : Fin n)) ?_ ?_
      · intro hcon
        have hv := congrArg Fin.val hcon
        simp only at hv
        omega
      · funext j
        exact he j.val j.isLt

/-- A 2×2 matrix with two identical rows. -/
def identicalRowsA : Mat := matOfRows [[1, 1], [1, 1]]

/-- Witness for the amended C2: LU rejects a matrix with identical rows. -/
theorem singular_matrix_rejected_by_lu_witness :
    (∀ j < 2, identicalRowsA 0 j = identicalRowsA 1 j)
    ∧ lu_decomposition 2 identicalRowsA = none :=
  ⟨by with_unfolding_all decide,
   singular_matrix_rejected_by_lu 2 identicalRowsA
     (Or.inr ⟨0, 1, by omega, by omega, by with_unfolding_all decide⟩)⟩

/-! ### C3 -/

/-- A column with two equally-maximal pivot candidates (rows 0 and 1). -/
def tieMatrix : Mat := matOfRows [[1, 0], [1, 1]]

/-- Counterexample to C3 as stated: with two rows tied at the maximal
magnitude (both above `EPSILON`), the spec's stable-max rule picks row 0,
but the code's `max_by` (which keeps the LAST maximal element) picks
row 1. -/
theorem pivot_tie_break_counterexample :
    EPSILON < |tieMatrix 0 0| ∧ |tieMatrix 0 0| = |tieMatrix 1 0|
    ∧ specFirstMaxPivotRow tieMatrix 0 2 = some 0
    ∧ selectPivot tieMatrix 0 2 = some (1, 1) := by
  with_unfolding_all decide

/-- C3 (amended): the shared pivot selection of Gaussian elimination and
LU decomposition returns a candidate of maximal magnitude, and on ties the
LAST such row encountered: every later candidate is strictly smaller. -/
theorem pivot_selects_last_max (u2 : Mat) (k n i : Nat) (v : ℚ)
    (h : selectPivot u2 k n = some (i, v)) :
    k ≤ i ∧ i < n ∧ v = u2 i k ∧ EPSILON < |v|
    ∧ (∀ r, k ≤ r → r < n → EPSILON < |u2 r k| → |u2 r k| ≤ |v|)
    ∧ (∀ r, i < r → r < n → EPSILON < |u2 r k| → |u2 r k| < |v|) :=
  ⟨(selectPivot_mem h).1, (selectPivot_mem h).2.1, (selectPivot_mem h).2.2.1,
   (selectPivot_mem h).2.2.2, selectPivot_max h, selectPivot_last h⟩

/-- A 2×1 pivot column with distinct magnitudes. -/
def pivotWitnessM : Mat := matOfRows [[5], [3]]

/-- Witness for the amended C3. -/
theorem pivot_selects_last_max_witness :
    selectPivot pivotWitnessM 0 2 = some (0, 5)
    ∧ (∀ r, 0 ≤ r → r < 2 → EPSILON < |pivotWitnessM r 0| →
        |pivotWitnessM r 0| ≤ |(5 : ℚ)|) :=
  ⟨by with_unfolding_all rfl,
   (pivot_selects_last_max pivotWitnessM 0 2 0 5 (by with_unfolding_all rfl)).2.2.2.2.1⟩

/-! ### C4 -/

/-- C4 (code-bug evidence): `Vector::normalize` contains no zero-norm
check — on the zero vector it computes norm `0` (any square root mapping
`0` to `0`, as `f64::sqrt` does) and divides every entry by that zero norm,
returning normally.  In IEEE arithmetic this `0.0 / 0.0` is `NaN`,
propagated silently; no error condition is raised anywhere in
`normalize`/`normalized` (the embedding's return type is accordingly not
fallible). -/
theorem normalize_zero_vector_silently_divides :
    vecNorm (fun q => q) 2 (fun _ => 0) = 0
    ∧ (∀ i < 2, vecNormalized (fun q => q) 2 (fun _ => 0) i = (0 : ℚ) / 0) := by
  with_unfolding_all decide

/-! ### C5 -/

/-- A lower-triangular matrix except that its single strictly-above-the-
diagonal entry has magnitude exactly `EPSILON`. -/
def boundaryL : Mat := matOfRows [[1, EPSILON], [0, 1]]

/-- Counterexample to C5 as stated: every strictly-above-diagonal entry of
`boundaryL` has magnitude `≤ EPSILON`, yet `forward_substitution` rejects
it — the code's assertion demands STRICTLY `< EPSILON`. -/
theorem substitution_boundary_counterexample :
    (∀ i < 2, ∀ r < i, |boundaryL r i| ≤ EPSILON)
    ∧ (forward_substitution 2 boundaryL (fun _ => 1)).isNone = true := by
  constructor
  · with_unfolding_all decide
  · with_unfolding_all decide

/-- C5 (amended): `forward_substitution` accepts exactly the matrices all
of whose strictly-above-diagonal entries have magnitude strictly below
`EPSILON`; any entry of magnitude `≥ EPSILON` (including exactly
`EPSILON`) makes the call fail before any entry is used.  On acceptance
the returned vector satisfies the forward recurrence.  Mirror statements
hold for `back_substitution` and the strictly-below-diagonal entries. -/
theorem substitution_strict_triangularity_contract (n : Nat) (aL aU : Mat)
    (b : Nat → ℚ) :
    ((∃ i, i < n ∧ ∃ r, r < i ∧ EPSILON ≤ |aL r i|) →
        forward_substitution n aL b = none)
    ∧ (lowerTriangularCheck n aL →
        ∃ y, forward_substitution n aL b = some y
          ∧ ∀ i < n, y i = (b i - ∑ j ∈ Finset.range i, aL i j * y j) / aL i i)
    ∧ ((∃ i, i < n ∧ ∃ r, i < r ∧ r < n ∧ EPSILON ≤ |aU r i|) →
        back_substitution n aU b = none)
    ∧ (upperTriangularCheck n aU →
        ∃ x, back_substitution n aU b = some x
          ∧ ∀ i < n, x i = (b i - ∑ j ∈ Finset.Ico (i + 1) n, aU i j * x j) / aU i i) := by
  refine ⟨?_, ?_, ?_, ?_⟩
  · rintro ⟨i, hi, r, hr, habs⟩
    unfold forward_substitution
    rw [if_neg]
    intro hchk
    exact absurd (hchk i hi r hr) (not_lt.mpr habs)
  · intro hchk
    refine ⟨fsGo aL b n, ?_, fsGo_spec aL b n⟩
    unfold forward_substitution
    rw [if_pos hchk]
  · rintro ⟨i, hi, r, hir, hr, habs⟩
    unfold back_substitution
    rw [if_neg]
    intro hchk
    exact absurd (hchk i hi r hr hir) (not_lt.mpr habs)
  · intro hchk
    refine ⟨bsGo aU b n n, ?_, bsGo_spec aU b n⟩
    unfold back_substitution
    rw [if_pos hchk]

/-- A strictly lower-triangular accept case for the C5 witness. -/
def fsWitnessL : Mat := matOfRows [[1, 0], [2, 1]]

/-- Witness for the amended C5: an accepted input and its recurrence. -/
theorem substitution_contract_witness :
    lowerTriangularCheck 2 fsWitnessL
    ∧ ∃ y, forward_substitution 2 fsWitnessL (fun _ => 1) = some y
        ∧ ∀ i < 2, y i = ((fun _ => (1 : ℚ)) i -
            ∑ j ∈ Finset.range i, fsWitnessL i j * y j) / fsWitnessL i i :=
  ⟨by with_unfolding_all decide,
   (substitution_strict_triangularity_contract 2 fsWitnessL fsWitnessL
      (fun _ => 1)).2.1 (by with_unfolding_all decide)⟩

/-! ### C6 -/

/-- C6: Gaussian elimination on the 3×4 augmented matrix
`[[2,1,-1,8],[-3,-1,2,-11],[-2,1,2,-3]]` succeeds, and its result matches
`[[-3,-1,2,-11],[0,5/3,2/3,13/3],[0,0,1/5,-1/5]]` entrywise within
`EPSILON` (exactly, over `ℚ`). -/
theorem gaussian_elimination_known_example :
    do_gaussian_elimination_for_n_n1 3 exampleAB = some exampleGEResult
    ∧ ∀ i < 3, ∀ j < 4, |exampleGEResult i j - exampleABExpected i j| ≤ EPSILON :=
  ⟨by with_unfolding_all rfl, by with_unfolding_all decide⟩

/-! ### C9 -/

/-- `solve_by_lu_decomposition` (ex23.rs lines 57-67) as a state
transformer on the caller's call state: `lu_decomposition(a)` receives
the coefficient matrix BY VALUE (its working `u` starts as that private
copy, which all elimination writes target); the permuted right-hand side
`SVector::from_fn(|i, _| b[pi[i]])` only reads `b`; the substitutions
read only the returned factors.  `a` and `b` are never written; `work`
records the solver's private `u` copy. -/
def solve_by_lu_decomposition (n : Nat) (s : SolverCallState) :
    Option (Nat → ℚ) × SolverCallState :=
  match lu_decomposition n s.a with
  | none => (none, { a := s.a, b := s.b, work := s.a })
  | some lup =>
    match forward_substitution n lup.1 (fun i => s.b (lup.2.2 i)) with
    | none => (none, { a := s.a, b := s.b, work := lup.2.1 })
    | some y =>
      (back_substitution n lup.2.1 y, { a := s.a, b := s.b, work := lup.2.1 })

/-- The data fields of `EquationExperimentStat` (lib.rs lines 84-90); the
wall-clock `elapsed` field is a timer reading, not data computed from the
inputs, and is omitted from the rational model. -/
structure EquationExperimentStatQ where
  solution : Nat → ℚ
  reference_solution : Nat → ℚ
  residual_norm : ℚ
  relative_error : ℚ

/-- `EquationSolver::experiment_randomly` (lib.rs lines 118-135), with
the two random draws supplied as the parameters `aRand`/`bRand`
(randomness consumption is the harness's only effect) and the trusted
reference routine (nalgebra's LU solve — an out-of-scope collaborator) as
the parameter `refSolve`.  The harness generates `a` and `b`, runs the
candidate `solver` on them, then computes the reference solution, the
residual norm `‖b − A·x‖` and the relative error from the very same `a`
and `b` — in the threaded model, from the call state as the solver left
it.  A solver panic (`none`) aborts the trial with no stats. -/
def experiment_randomly (n : Nat) (sq : ℚ → ℚ)
    (solver : Nat → SolverCallState → Option (Nat → ℚ) × SolverCallState)
    (refSolve : Mat → (Nat → ℚ) → (Nat → ℚ))
    (aRand : Mat) (bRand : Nat → ℚ) :
    Option EquationExperimentStatQ × SolverCallState :=
  let r := solver n { a := aRand, b := bRand, work := fun _ _ => 0 }
  match r.1 with
  | none => (none, r.2)
  | some solution =>
    let reference_solution := refSolve r.2.a r.2.b
    (some { solution := solution,
            reference_solution := reference_solution,
            residual_norm := vecNorm sq n (fun i => r.2.b i - matVec n r.2.a solution i),
            relative_error :=
              vecNorm sq n (fun i => solution i - reference_solution i) /
                vecNorm sq n reference_solution },
     r.2)

/-- The Gaussian-elimination solver writes only its working copy. -/
theorem solve_by_gaussian_elimination_preserves (n : Nat) (s : SolverCallState) :
    (solve_by_gaussian_elimination n s).2.a = s.a
    ∧ (solve_by_gaussian_elimination n s).2.b = s.b := by
  unfold solve_by_gaussian_elimination
  dsimp only
  cases do_gaussian_elimination_for_n_n1 n (fun i j => if j < n then s.a i j else s.b i) with
  | none => exact ⟨rfl, rfl⟩
  | some w => exact ⟨rfl, rfl⟩

/-- The LU-based solver writes only its working copies. -/
theorem solve_by_lu_decomposition_preserves (n : Nat) (s : SolverCallState) :
    (solve_by_lu_decomposition n s).2.a = s.a
    ∧ (solve_by_lu_decomposition n s).2.b = s.b := by
  unfold solve_by_lu_decomposition
  cases lu_decomposition n s.a with
  | none => exact ⟨rfl, rfl⟩
  | some lup =>
    dsimp only
    cases forward_substitution n lup.1 (fun i => s.b (lup.2.2 i)) with
    | none => exact ⟨rfl, rfl⟩
    | some y => exact ⟨rfl, rfl⟩

/-- The harness preserves the generated inputs whenever the candidate
solver it drives does. -/
theorem experiment_randomly_preserves (n : Nat) (sq : ℚ → ℚ)
    (solver : Nat → SolverCallState → Option (Nat → ℚ) × SolverCallState)
    (refSolve : Mat → (Nat → ℚ) → (Nat → ℚ)) (aRand : Mat) (bRand : Nat → ℚ)
    (hsolver : ∀ s2 : SolverCallState,
      (solver n s2).2.a = s2.a ∧ (solver n s2).2.b = s2.b) :
    (experiment_randomly n sq solver refSolve aRand bRand).2.a = aRand
    ∧ (experiment_randomly n sq solver refSolve aRand bRand).2.b = bRand := by
  obtain ⟨ha, hb⟩ := hsolver { a := aRand, b := bRand, work := fun _ _ => 0 }
  unfold experiment_randomly
  dsimp only
  cases (solver n { a := aRand, b := bRand, work := fun _ _ => 0 }).1 with
  | none => exact ⟨ha, hb⟩
  | some solution => exact ⟨ha, hb⟩

/-- C9: running a solver — ex1's Gaussian-elimination solver, ex23's
LU-based solver, or the harness's `experiment_randomly` driving either of
them — leaves the caller's `A` and `b` unchanged: every write of the
translated routines targets a private working copy (the augmented copy of
the elimination, the `l`/`u`/`pi` copies of the decomposition), never the
caller's inputs, which the harness then reuses for its metrics. -/
theorem solver_preserves_caller_inputs (n : Nat) (s : SolverCallState)
    (sq : ℚ → ℚ) (refSolve : Mat → (Nat → ℚ) → (Nat → ℚ))
    (aRand : Mat) (bRand : Nat → ℚ) :
    ((solve_by_gaussian_elimination n s).2.a = s.a
      ∧ (solve_by_gaussian_elimination n s).2.b = s.b)
    ∧ ((solve_by_lu_decomposition n s).2.a = s.a
      ∧ (solve_by_lu_decomposition n s).2.b = s.b)
    ∧ ((experiment_randomly n sq solve_by_gaussian_elimination refSolve aRand bRand).2.a
          = aRand
      ∧ (experiment_randomly n sq solve_by_gaussian_elimination refSolve aRand bRand).2.b
          = bRand)
    ∧ ((experiment_randomly n sq solve_by_lu_decomposition refSolve aRand bRand).2.a
          = aRand
      ∧ (experiment_randomly n sq solve_by_lu_decomposition refSolve aRand bRand).2.b
          = bRand) :=
  ⟨solve_by_gaussian_elimination_preserves n s,
   solve_by_lu_decomposition_preserves n s,
   experiment_randomly_preserves n sq solve_by_gaussian_elimination refSolve aRand bRand
     (fun s2 => solve_by_gaussian_elimination_preserves n s2),
   experiment_randomly_preserves n sq solve_by_lu_decomposition refSolve aRand bRand
     (fun s2 => solve_by_lu_decomposition_preserves n s2)⟩

/-! ### C10 -/

/-- C10: `transpose` is an involution on every well-formed `N×M` matrix —
transposing twice rebuilds the identical column-major container — and
entry `(i, j)` of the transpose is entry `(j, i)` of the original. -/
theorem transpose_involution (N M : Nat) (A : MatrixQ N M) (hwf : A.wf) :
    A.transpose.transpose = A
    ∧ ∀ i < M, ∀ j < N, A.transpose.entry i j = A.entry j i :=
  ⟨MatrixQ.transpose_transpose A hwf,
   fun i hi j hj => MatrixQ.transpose_entry A i j hi hj⟩

/-- A concrete well-formed 2×3 matrix (three columns of two entries). -/
def exampleMQ : MatrixQ 2 3 := MatrixQ.mk [[1, 2], [3, 4], [5, 6]]

/-- Witness for C10. -/
theorem transpose_involution_witness :
    exampleMQ.wf ∧ exampleMQ.transpose.transpose = exampleMQ :=
  ⟨by with_unfolding_all decide,
   (transpose_involution 2 3 exampleMQ (by with_unfolding_all decide)).1⟩

/-! ### C7 -/

/-- C7: if the convergence test never holds within the iteration budget,
`solve_by_power_iteration` reports the fatal divergence condition and in
particular never returns a solution (the last estimate is not returned
silently). -/
theorem power_iteration_reports_divergence (sq : ℚ → ℚ) (n : Nat) (a : Mat)
    (hn : 0 < n) (h : ∀ t, t < MAX_ITERATIONS - 1 → ¬ piConvergesAt sq n a t) :
    solve_by_power_iteration sq n a = .error .divergence
    ∧ ∀ s, solve_by_power_iteration sq n a ≠ .ok s := by
  have hd := solve_by_power_iteration_diverges sq n a hn h
  refine ⟨hd, fun s hs => ?_⟩
  rw [hd] at hs
  exact Except.noConfusion hs

/-- A 2×2 matrix with eigenvalues `±2`: the magnitude of the estimate
oscillates between `4` and `1` forever, so the convergence test never
holds. -/
def oscillA : Mat := matOfRows [[0, 1], [4, 0]]

/-- A stand-in square root for the divergence witness (the trajectory
facts below are independent of the choice apart from `vecNorm` being `1`,
which only rescales the iterates uniformly). -/
def sqOne : ℚ → ℚ := fun _ => 1

theorem vecNorm_sqOne (n : Nat) (v : Nat → ℚ) : vecNorm sqOne n v = 1 := rfl

theorem vecNormalized_sqOne (n : Nat) (v : Nat → ℚ) (i : Nat) (hi : i < n) :
    vecNormalized sqOne n v i = v i := by
  unfold vecNormalized
  rw [if_pos hi, vecNorm_sqOne, div_one]

/-- Evaluate the 2-dimensional matrix-vector product. -/
theorem matVec_two (a : Mat) (x : Nat → ℚ) (i : Nat) :
    matVec 2 a x i = a i 0 * x 0 + a i 1 * x 1 := by
  unfold matVec
  rw [Finset.sum_range_succ, Finset.sum_range_succ, Finset.sum_range_zero, zero_add]

/-- `max_by` on a two-entry vector yields index 1 unless entry 0 is
strictly larger in magnitude (ties go to the LAST index). -/
theorem rustMaxByAbs_pair (x : Nat → ℚ) (h : ¬ |x 0| > |x 1|) :
    rustMaxByAbs ((List.range 2).map (fun i => (i, x i))) = some (1, x 1) := by
  rw [show (List.range 2).map (fun i => (i, x i)) = [(0, x 0), (1, x 1)] from rfl]
  show rustMaxStep (rustMaxStep none (0, x 0)) (1, x 1) = some (1, x 1)
  rw [show rustMaxStep none (0, x 0) = some (0, x 0) from rfl]
  show (if |x 0| > |x 1| then some ((0 : Nat), x 0) else some ((1 : Nat), x 1))
      = some (1, x 1)
  rw [if_neg h]

theorem oscillA_00 : oscillA 0 0 = 0 := rfl
theorem oscillA_01 : oscillA 0 1 = 1 := rfl
theorem oscillA_10 : oscillA 1 0 = 4 := rfl
theorem oscillA_11 : oscillA 1 1 = 0 := rfl

/-- The power-iteration trajectory on `oscillA`: after `t + 1` trips the
last estimate is `4` (odd trips) or `1` (even trips), and the iterate is
`(4^((t+1)/2), 4^((t+2)/2))`. -/
theorem oscill_state : ∀ t : Nat,
    (piTraj sqOne 2 oscillA (t + 1)).1.getLast? = some (if (t + 1) % 2 = 1 then 4 else 1)
    ∧ (piTraj sqOne 2 oscillA (t + 1)).2 0 = 4 ^ ((t + 1) / 2)
    ∧ (piTraj sqOne 2 oscillA (t + 1)).2 1 = 4 ^ ((t + 2) / 2) := by
  intro t
  induction t with
  | zero =>
    have hx : (piTraj sqOne 2 oscillA 0).2 = fun _ => 1 := rfl
    have hmu : (piTraj sqOne 2 oscillA 0).1 = [] := rfl
    have hmax := rustMaxByAbs_pair (piTraj sqOne 2 oscillA 0).2 (by rw [hx]; norm_num)
    rw [piTraj_succ, hmax]
    dsimp only
    rw [hmu, hx]
    refine ⟨?_, ?_, ?_⟩
    · rw [List.nil_append, show List.getLast? [matVec 2 oscillA (fun _ => 1) 1 / 1]
          = some (matVec 2 oscillA (fun _ => 1) 1 / 1) from rfl]
      rw [matVec_two, oscillA_10, oscillA_11]
      norm_num
    · rw [vecNormalized_sqOne 2 _ 0 (by omega), matVec_two, oscillA_00, oscillA_01]
      norm_num
    · rw [vecNormalized_sqOne 2 _ 1 (by omega), matVec_two, oscillA_10, oscillA_11]
      norm_num
  | succ s ih =>
    obtain ⟨hlast, hx0, hx1⟩ := ih
    have h4 : (0 : ℚ) < 4 := by norm_num
    have hle : ¬ |(piTraj sqOne 2 oscillA (s + 1)).2 0| >
        |(piTraj sqOne 2 oscillA (s + 1)).2 1| := by
      rw [hx0, hx1, abs_of_pos (pow_pos h4 _), abs_of_pos (pow_pos h4 _)]
      exact not_lt.mpr (pow_le_pow_right₀ (by norm_num) (by omega))
    have hmax := rustMaxByAbs_pair (piTraj sqOne 2 oscillA (s + 1)).2 hle
    rw [piTraj_succ, hmax]
    dsimp only
    have hy0 : matVec 2 oscillA (piTraj sqOne 2 oscillA (s + 1)).2 0
        = (piTraj sqOne 2 oscillA (s + 1)).2 1 := by
      rw [matVec_two, oscillA_00, oscillA_01]; ring
    have hy1 : matVec 2 oscillA (piTraj sqOne 2 oscillA (s + 1)).2 1
        = 4 * (piTraj sqOne 2 oscillA (s + 1)).2 0 := by
      rw [matVec_two, oscillA_10, oscillA_11]; ring
    have hx0ne : (piTraj sqOne 2 oscillA (s + 1)).2 0 ≠ 0 := by
      rw [hx0]; exact pow_ne_zero _ (by norm_num)
    rcases Nat.mod_two_eq_zero_or_one (s + 1) with hp | hp
    · -- s + 1 even: the two entries coincide and the new estimate is 4
      have hxx : (piTraj sqOne 2 oscillA (s + 1)).2 1
          = (piTraj sqOne 2 oscillA (s + 1)).2 0 := by
        rw [hx0, hx1]
        congr 1
        omega
      have hmuk : matVec 2 oscillA (piTraj sqOne 2 oscillA (s + 1)).2 1 /
          (piTraj sqOne 2 oscillA (s + 1)).2 1 = 4 := by
        rw [hy1, hxx, mul_div_assoc, div_self hx0ne, mul_one]
      refine ⟨?_, ?_, ?_⟩
      · rw [List.getLast?_concat, hmuk, if_pos (by omega)]
      · rw [vecNormalized_sqOne 2 _ 0 (by omega), hy0, hxx, hx0]
        congr 1
        omega
      · rw [vecNormalized_sqOne 2 _ 1 (by omega), hy1, hx0,
          show (s + 1 + 2) / 2 = (s + 1) / 2 + 1 from by omega, pow_succ]
        ring
    · -- s + 1 odd: entry 1 is 4 times entry 0 and the new estimate is 1
      have hxr : (piTraj sqOne 2 oscillA (s + 1)).2 1
          = (piTraj sqOne 2 oscillA (s + 1)).2 0 * 4 := by
        rw [hx0, hx1, show (s + 2) / 2 = (s + 1) / 2 + 1 from by omega, pow_succ]
      have hmuk : matVec 2 oscillA (piTraj sqOne 2 oscillA (s + 1)).2 1 /
          (piTraj sqOne 2 oscillA (s + 1)).2 1 = 1 := by
        rw [hy1, hxr, mul_comm 4 ((piTraj sqOne 2 oscillA (s + 1)).2 0)]
        exact div_self (mul_ne_zero hx0ne (by norm_num))
      refine ⟨?_, ?_, ?_⟩
      · rw [List.getLast?_concat, hmuk, if_neg (by omega)]
      · rw [vecNormalized_sqOne 2 _ 0 (by omega), hy0, hx1]
      · rw [vecNormalized_sqOne 2 _ 1 (by omega), hy1, hx0,
          show (s + 1 + 2) / 2 = (s + 1) / 2 + 1 from by omega, pow_succ]
        ring

/-- On `oscillA` the convergence test fails at every trip: the successive
estimate magnitudes are `4, 1, 4, 1, ...`, always `3` apart. -/
theorem oscill_never_converges :
    ∀ t, t < MAX_ITERATIONS - 1 → ¬ piConvergesAt sqOne 2 oscillA t := by
  intro t _
  cases t with
  | zero =>
    intro hc
    unfold piConvergesAt at hc
    dsimp only at hc
    rw [rustMaxByAbs_pair (piTraj sqOne 2 oscillA 0).2
      (by rw [show (piTraj sqOne 2 oscillA 0).2 = fun _ => 1 from rfl]; norm_num)] at hc
    dsimp only at hc
    rw [show (piTraj sqOne 2 oscillA 0).1 = [] from rfl] at hc
    simp at hc
  | succ s =>
    obtain ⟨hlast, hx0, hx1⟩ := oscill_state s
    have h4 : (0 : ℚ) < 4 := by norm_num
    have hle : ¬ |(piTraj sqOne 2 oscillA (s + 1)).2 0| >
        |(piTraj sqOne 2 oscillA (s + 1)).2 1| := by
      rw [hx0, hx1, abs_of_pos (pow_pos h4 _), abs_of_pos (pow_pos h4 _)]
      exact not_lt.mpr (pow_le_pow_right₀ (by norm_num) (by omega))
    have hx0ne : (piTraj sqOne 2 oscillA (s + 1)).2 0 ≠ 0 := by
      rw [hx0]; exact pow_ne_zero _ (by norm_num)
    have hy1 : matVec 2 oscillA (piTraj sqOne 2 oscillA (s + 1)).2 1
        = 4 * (piTraj sqOne 2 oscillA (s + 1)).2 0 := by
      rw [matVec_two, oscillA_10, oscillA_11]; ring
    intro hc
    unfold piConvergesAt at hc
    dsimp only at hc
    rw [rustMaxByAbs_pair (piTraj sqOne 2 oscillA (s + 1)).2 hle] at hc
    dsimp only at hc
    rw [hlast] at hc
    dsimp only at hc
    rw [hy1] at hc
    rcases Nat.mod_two_eq_zero_or_one (s + 1) with hp | hp
    · -- even trip: previous estimate 1, new estimate 4
      have hxx : (piTraj sqOne 2 oscillA (s + 1)).2 1
          = (piTraj sqOne 2 oscillA (s + 1)).2 0 := by
        rw [hx0, hx1]
        congr 1
        omega
      rw [if_neg (by omega), hxx, mul_div_assoc, div_self hx0ne, mul_one] at hc
      norm_num [EPSILON] at hc
    · -- odd trip: previous estimate 4, new estimate 1
      have hxr : (piTraj sqOne 2 oscillA (s + 1)).2 1
          = (piTraj sqOne 2 oscillA (s + 1)).2 0 * 4 := by
        rw [hx0, hx1, show (s + 2) / 2 = (s + 1) / 2 + 1 from by omega, pow_succ]
      rw [if_pos (by omega), hxr, mul_comm 4 ((piTraj sqOne 2 oscillA (s + 1)).2 0),
        div_self (mul_ne_zero hx0ne (by norm_num))] at hc
      norm_num [EPSILON] at hc

/-- Witness for C7: on `oscillA` the estimates oscillate forever and the
solver reports divergence. -/
theorem power_iteration_reports_divergence_witness :
    (0 < 2) ∧ solve_by_power_iteration sqOne 2 oscillA = .error .divergence :=
  ⟨by norm_num,
   (power_iteration_reports_divergence sqOne 2 oscillA (by norm_num)
      oscill_never_converges).1⟩
